import Mathlib

/-!
Verification of the folder-tree generator (`folder_tree_generator.py`).

The development shallowly embeds the three core functions of the source —
`generate_tree` (with its inner `walk_dir`), `tree_to_json` and `tree_to_html` —
and proves the testable properties stated for them.

Modelling conventions:
* The filesystem seen by one walk is a pure value of type `FSNode`.  A directory
  node carries the result that `os.listdir` would produce for it (its entry list,
  a `PermissionError`, or another error with its message) and the value that
  `os.path.realpath` would return for it (abstracted to a `Nat` identifier,
  since only equality of canonical paths is ever used).
* A plain file carries the values `os.path.getsize` / formatted
  `os.path.getmtime` would yield plus a flag telling whether reading those
  stats succeeds; a symlink carries the `os.readlink` result (`none` when
  `readlink` raises).
* The mutable `visited` set and the growing `tree_lines` list of the source are
  threaded explicitly: each walk function returns the lines it appends together
  with the updated visited set.
* Machine strings are Lean `String`s; Python `len` on a `str` counts code
  points, as does `String.length`.
-/

/-- The three glyphs of one entry of `TREE_SYMBOLS`. -/
structure Symbols where
  branch : String
  last : String
  indent : String
deriving DecidableEq, Repr

/-- `TREE_SYMBOLS['Classic']`. -/
def classicSymbols : Symbols := ⟨"├── ", "└── ", "│   "⟩

/-- `TREE_SYMBOLS['Simple']`. -/
def simpleSymbols : Symbols := ⟨"|-- ", "\\-- ", "|   "⟩

/-- `TREE_SYMBOLS['ASCII']`. -/
def asciiSymbols : Symbols := ⟨"+-- ", "+-- ", "    "⟩

/-- The parameters of `generate_tree` that stay fixed during one walk. -/
structure Config where
  exclusions : List String
  include_hidden : Bool
  max_depth : Option Nat
  show_metadata : Bool
  symbols : Symbols
deriving DecidableEq, Repr

/-- One node of the filesystem as observed by `walk_dir`.

* `file size mtime statOk`: a regular file; `statOk` records whether the
  `os.path.getsize` / `os.path.getmtime` calls succeed, `mtime` is the already
  `strftime`-formatted local timestamp (the formatting itself is an
  environment-supplied value, not algorithmic content).
* `dir rid entries`: a readable directory; `rid` abstracts the canonical path
  `os.path.realpath` yields for it, `entries` is what `os.listdir` returns
  (as name/node pairs, in the unspecified order `os.listdir` uses).
* `dirPermErr rid` / `dirOtherErr rid msg`: a directory for which `os.listdir`
  raises `PermissionError` resp. another exception with text `msg`.
* `symlink target`: a symbolic link; `target` is `none` when `os.readlink`
  raises. -/
inductive FSNode where
  | file (size : Nat) (mtime : String) (statOk : Bool)
  | dir (rid : Nat) (entries : List (String × FSNode))
  | dirPermErr (rid : Nat)
  | dirOtherErr (rid : Nat) (msg : String)
  | symlink (target : Option String)
deriving Repr

/-- The canonical-path identifier of a directory node (`os.path.realpath`). -/
def ridOf : FSNode → Nat
  | FSNode.dir rid _ => rid
  | FSNode.dirPermErr rid => rid
  | FSNode.dirOtherErr rid _ => rid
  | _ => 0

/-- `os.path.isdir` for an entry that is not a symlink. -/
def isDirNode : FSNode → Bool
  | FSNode.dir _ _ => true
  | FSNode.dirPermErr _ => true
  | FSNode.dirOtherErr _ _ => true
  | _ => false

/-- The sort key comparison of `sorted(os.listdir(...), key=lambda s: s.lower())`:
entries are compared by the lowercased name (Python's stable sort by key). -/
def keyLe (a b : String × FSNode) : Bool := decide (a.1.toLower ≤ b.1.toLower)

/-- `sorted(os.listdir(current_path), key=lambda s: s.lower())`. -/
def sortItems (l : List (String × FSNode)) : List (String × FSNode) :=
  l.mergeSort keyLe

/-- `item.startswith('.')`, at the character level: the name's first character
is the hidden marker `'.'`. -/
def hiddenName (s : String) : Bool :=
  match s.data with
  | c :: _ => c == '.'
  | [] => false

/-- `if not include_hidden: items = [item for item in items if not item.startswith('.')]`. -/
def filterHidden (cfg : Config) (l : List (String × FSNode)) : List (String × FSNode) :=
  if cfg.include_hidden then l else l.filter (fun e => !(hiddenName e.1))

/-- `items = [item for item in items if item not in exclusions]`. -/
def filterExcl (cfg : Config) (l : List (String × FSNode)) : List (String × FSNode) :=
  l.filter (fun e => !(cfg.exclusions.contains e.1))

/-- The entry list `walk_dir` actually iterates over: sorted, then hidden-filtered,
then exclusion-filtered (lines 62–76 of the source). -/
def sortFiltered (cfg : Config) (l : List (String × FSNode)) : List (String × FSNode) :=
  filterExcl cfg (filterHidden cfg (sortItems l))

/-- `if max_depth is not None and current_depth > max_depth` (line 58). -/
def truncated (cfg : Config) (depth : Nat) : Bool :=
  match cfg.max_depth with
  | some md => decide (depth > md)
  | none => false

/-- The display name of a symlink entry (lines 85–92). -/
def symlinkDisplay (name : String) (target : Option String) : String :=
  match target with
  | some t => name ++ " -> " ++ t
  | none => name ++ " -> [Invalid Symlink]"

/-- The display name of a plain-file entry, with the metadata suffix when
`show_metadata` is set and reading the stats succeeds (lines 94–104). -/
def fileDisplay (cfg : Config) (name : String) (size : Nat) (mtime : String)
    (statOk : Bool) : String :=
  if cfg.show_metadata && statOk then
    name ++ " [Size: " ++ toString size ++ " bytes, Modified: " ++ mtime ++ "]"
  else name

theorem sizeOf_filter_le {α : Type} [SizeOf α] (p : α → Bool) (l : List α) :
    sizeOf (l.filter p) ≤ sizeOf l := by
  induction l with
  | nil => simp
  | cons a l ih =>
    by_cases h : p a <;> simp [List.filter_cons, h] <;> omega

theorem sizeOf_sortFiltered_le (cfg : Config) (l : List (String × FSNode)) :
    sizeOf (sortFiltered cfg l) ≤ sizeOf l := by
  have h1 : sizeOf (sortItems l) = sizeOf l :=
    (List.mergeSort_perm l keyLe).sizeOf_eq_sizeOf
  have h2 : sizeOf (filterHidden cfg (sortItems l)) ≤ sizeOf (sortItems l) := by
    unfold filterHidden
    by_cases h : cfg.include_hidden
    · simp [h]
    · simp [h]; exact sizeOf_filter_le _ _
  have h3 := sizeOf_filter_le (fun e : String × FSNode => !(cfg.exclusions.contains e.1))
    (filterHidden cfg (sortItems l))
  unfold sortFiltered filterExcl
  omega

mutual

/-- The body of `walk_dir(current_path, prefix, current_depth)` (lines 57–116).
`node` is the filesystem node `current_path` denotes; the result pairs the
appended lines with the updated visited set. -/
def walkDir (cfg : Config) (node : FSNode) (pfx : String) (depth : Nat)
    (visited : List Nat) : List String × List Nat :=
  if truncated cfg depth then
    ([pfx ++ cfg.symbols.last ++ "..."], visited)
  else
    match node with
    | FSNode.dir _rid entries =>
      walkItems cfg (sortFiltered cfg entries) pfx depth visited
    | FSNode.dirPermErr _ =>
      ([pfx ++ cfg.symbols.last ++ "[Permission Denied]"], visited)
    | FSNode.dirOtherErr _ msg =>
      ([pfx ++ cfg.symbols.last ++ "[Error: " ++ msg ++ "]"], visited)
    | FSNode.file _ _ _ =>
      ([pfx ++ cfg.symbols.last ++ "[Error: Not a directory]"], visited)
    | FSNode.symlink _ =>
      ([pfx ++ cfg.symbols.last ++ "[Error: Not a directory]"], visited)
termination_by (sizeOf node, 0)
decreasing_by
  apply Prod.Lex.left
  have := sizeOf_sortFiltered_le cfg entries
  simp only [FSNode.dir.sizeOf_spec]
  omega

/-- The `for index, item in enumerate(items)` loop of `walk_dir` (lines 77–116),
returning the concatenated lines.  `rest.isEmpty` plays the role of
`index == len(items) - 1`. -/
def walkItems (cfg : Config) (items : List (String × FSNode)) (pfx : String)
    (depth : Nat) (visited : List Nat) : List String × List Nat :=
  match items with
  | [] => ([], visited)
  | (name, node) :: rest =>
    let r1 := walkEntry cfg name node pfx rest.isEmpty depth visited
    let r2 := walkItems cfg rest pfx depth r1.2
    (r1.1 ++ r2.1, r2.2)
termination_by (sizeOf items, 2)
decreasing_by
  · apply Prod.Lex.left
    simp only [List.cons.sizeOf_spec, Prod.mk.sizeOf_spec]
    omega
  · apply Prod.Lex.left
    simp only [List.cons.sizeOf_spec]
    omega

/-- The loop body for one entry (lines 78–116): symlink handling, metadata,
emission of the entry line, and descent into directories with the
`realpath`/`visited` cycle check. -/
def walkEntry (cfg : Config) (name : String) (node : FSNode) (pfx : String)
    (isLast : Bool) (depth : Nat) (visited : List Nat) : List String × List Nat :=
  let connector := if isLast then cfg.symbols.last else cfg.symbols.branch
  match node with
  | FSNode.symlink target =>
    ([pfx ++ connector ++ symlinkDisplay name target], visited)
  | FSNode.file size mtime statOk =>
    ([pfx ++ connector ++ fileDisplay cfg name size mtime statOk], visited)
  | FSNode.dir rid entries =>
    let line := pfx ++ connector ++ name
    if visited.contains rid then
      ([line, pfx ++ cfg.symbols.indent ++ "[Circular Link]"], visited)
    else
      let ext := if isLast then "    " else cfg.symbols.indent
      let sub := walkDir cfg (FSNode.dir rid entries) (pfx ++ ext) (depth + 1)
        (rid :: visited)
      (line :: sub.1, sub.2)
  | FSNode.dirPermErr rid =>
    let line := pfx ++ connector ++ name
    if visited.contains rid then
      ([line, pfx ++ cfg.symbols.indent ++ "[Circular Link]"], visited)
    else
      let ext := if isLast then "    " else cfg.symbols.indent
      let sub := walkDir cfg (FSNode.dirPermErr rid) (pfx ++ ext) (depth + 1)
        (rid :: visited)
      (line :: sub.1, sub.2)
  | FSNode.dirOtherErr rid msg =>
    let line := pfx ++ connector ++ name
    if visited.contains rid then
      ([line, pfx ++ cfg.symbols.indent ++ "[Circular Link]"], visited)
    else
      let ext := if isLast then "    " else cfg.symbols.indent
      let sub := walkDir cfg (FSNode.dirOtherErr rid msg) (pfx ++ ext) (depth + 1)
        (rid :: visited)
      (line :: sub.1, sub.2)
termination_by (sizeOf node, 1)
decreasing_by
  all_goals exact Prod.Lex.right _ (by omega)

end

/-- `"\n".join(tree_lines)`. -/
def joinLines : List String → String
  | [] => ""
  | [s] => s
  | s :: rest => s ++ "\n" ++ joinLines rest

/-- The full line list produced by `generate_tree`: the root path first
(line 118), then the walk starting at depth 1 with an empty visited set
(line 119, with the `visited=None` default of line 26/54). -/
def treeLines (cfg : Config) (folder_path : String) (root : FSNode) : List String :=
  folder_path :: (walkDir cfg root "" 1 []).1

/-- `generate_tree` (lines 25–120): the newline-joined line list. -/
def generate_tree (cfg : Config) (folder_path : String) (root : FSNode) : String :=
  joinLines (treeLines cfg folder_path root)

/-- The per-entry line blocks of the `for` loop: same recursion as `walkItems`
but keeping each entry's lines as one block (so `walkItems` is its flattening). -/
def walkBlocks (cfg : Config) (items : List (String × FSNode)) (pfx : String)
    (depth : Nat) (visited : List Nat) : List (List String) × List Nat :=
  match items with
  | [] => ([], visited)
  | (name, node) :: rest =>
    let r1 := walkEntry cfg name node pfx rest.isEmpty depth visited
    let r2 := walkBlocks cfg rest pfx depth r1.2
    (r1.1 :: r2.1, r2.2)

theorem walkItems_eq_blocks (cfg : Config) (items : List (String × FSNode))
    (pfx : String) (depth : Nat) (visited : List Nat) :
    walkItems cfg items pfx depth visited
      = ((walkBlocks cfg items pfx depth visited).1.flatten,
         (walkBlocks cfg items pfx depth visited).2) := by
  induction items generalizing visited with
  | nil => simp [walkItems, walkBlocks]
  | cons e rest ih =>
    obtain ⟨name, node⟩ := e
    rw [walkItems, walkBlocks]
    simp [ih]

/-- The display name an entry's own line carries (symlink arrow, optional
metadata suffix for plain files, bare name for directories). -/
def entryDisplay (cfg : Config) (name : String) : FSNode → String
  | FSNode.symlink target => symlinkDisplay name target
  | FSNode.file size mtime statOk => fileDisplay cfg name size mtime statOk
  | _ => name

/-- The direct child line each filtered entry is expected to contribute. -/
def childHeads (cfg : Config) (pfx : String) : List (String × FSNode) → List (Option String)
  | [] => []
  | (name, node) :: rest =>
    some (pfx ++ (if rest.isEmpty then cfg.symbols.last else cfg.symbols.branch)
      ++ entryDisplay cfg name node) :: childHeads cfg pfx rest

theorem walkEntry_head (cfg : Config) (name : String) (node : FSNode) (pfx : String)
    (isLast : Bool) (depth : Nat) (visited : List Nat) :
    (walkEntry cfg name node pfx isLast depth visited).1.head?
      = some (pfx ++ (if isLast then cfg.symbols.last else cfg.symbols.branch)
          ++ entryDisplay cfg name node) := by
  cases node <;> rw [walkEntry] <;> simp [entryDisplay] <;> split <;> simp

theorem sortFiltered_sorted (cfg : Config) (l : List (String × FSNode)) :
    (sortFiltered cfg l).Pairwise (fun a b => a.1.toLower ≤ b.1.toLower) := by
  have ht : ∀ a b c : String × FSNode, keyLe a b → keyLe b c → keyLe a c := by
    intro a b c h1 h2
    simp only [keyLe, decide_eq_true_eq] at h1 h2 ⊢
    exact le_trans h1 h2
  have hto : ∀ a b : String × FSNode, keyLe a b || keyLe b a := by
    intro a b
    simp only [keyLe, Bool.or_eq_true, decide_eq_true_eq]
    exact le_total _ _
  have hs : (sortItems l).Pairwise (keyLe · ·) := List.sorted_mergeSort ht hto l
  have hs' : (sortItems l).Pairwise (fun a b => a.1.toLower ≤ b.1.toLower) :=
    hs.imp (fun h => by simpa [keyLe] using h)
  have h1 : List.Sublist (filterHidden cfg (sortItems l)) (sortItems l) := by
    unfold filterHidden
    split
    · exact List.Sublist.refl _
    · exact List.filter_sublist _
  have h2 : List.Sublist (sortFiltered cfg l) (filterHidden cfg (sortItems l)) :=
    List.filter_sublist _
  exact hs'.sublist (h2.trans h1)

/-- C1: for a directory whose listing succeeds and whose depth is within the
configured bound, the walker's output is the concatenation of one block per
entry surviving the hidden/exclusion filters; there are exactly as many blocks
as filtered entries, each block's first line is that entry's direct child line
(parent prefix, branch/last connector, display name), and the filtered entries
are in case-insensitive lexicographic order of name. -/
theorem walkDir_child_lines (cfg : Config) (rid : Nat)
    (entries : List (String × FSNode)) (pfx : String) (depth : Nat)
    (visited : List Nat) (h : truncated cfg depth = false) :
    (walkDir cfg (FSNode.dir rid entries) pfx depth visited).1
      = (walkBlocks cfg (sortFiltered cfg entries) pfx depth visited).1.flatten
    ∧ (walkBlocks cfg (sortFiltered cfg entries) pfx depth visited).1.length
      = (sortFiltered cfg entries).length
    ∧ (walkBlocks cfg (sortFiltered cfg entries) pfx depth visited).1.map List.head?
      = childHeads cfg pfx (sortFiltered cfg entries)
    ∧ (sortFiltered cfg entries).Pairwise (fun a b => a.1.toLower ≤ b.1.toLower) := by
  refine ⟨?_, ?_, ?_, sortFiltered_sorted cfg entries⟩
  · rw [walkDir]
    simp [h, walkItems_eq_blocks]
  · generalize sortFiltered cfg entries = its
    induction its generalizing visited with
    | nil => simp [walkBlocks]
    | cons e rest ih =>
      obtain ⟨name, node⟩ := e
      rw [walkBlocks]
      simp [ih]
  · generalize sortFiltered cfg entries = its
    induction its generalizing visited with
    | nil => simp [walkBlocks, childHeads]
    | cons e rest ih =>
      obtain ⟨name, node⟩ := e
      rw [walkBlocks, childHeads]
      simp [ih, walkEntry_head]

def c1cfg : Config := ⟨["node_modules"], false, none, false, classicSymbols⟩

def c1entries : List (String × FSNode) :=
  [("node_modules", FSNode.dir 1 []),
   (".env", FSNode.file 3 "m" true),
   ("B", FSNode.file 1 "m" true),
   ("a", FSNode.dir 2 [("x", FSNode.file 5 "mm" true)])]

/-- Witness for C1 at a concrete directory listing. -/
theorem walkDir_child_lines_witness :
    truncated c1cfg 1 = false
    ∧ ((walkDir c1cfg (FSNode.dir 0 c1entries) "" 1 []).1
        = (walkBlocks c1cfg (sortFiltered c1cfg c1entries) "" 1 []).1.flatten
      ∧ (walkBlocks c1cfg (sortFiltered c1cfg c1entries) "" 1 []).1.length
        = (sortFiltered c1cfg c1entries).length
      ∧ (walkBlocks c1cfg (sortFiltered c1cfg c1entries) "" 1 []).1.map List.head?
        = childHeads c1cfg "" (sortFiltered c1cfg c1entries)
      ∧ (sortFiltered c1cfg c1entries).Pairwise
          (fun a b => a.1.toLower ≤ b.1.toLower)) :=
  ⟨rfl, walkDir_child_lines c1cfg 0 c1entries "" 1 [] rfl⟩

/-- C4: a symlink entry is handled before the file/directory logic: it yields
exactly one line `"<name> -> <resolved target>"` (or
`"<name> -> [Invalid Symlink]"` when `os.readlink` fails), no child lines, and
the visited set is untouched — for every depth, visited set and configuration,
so a symlinked directory is never descended into. -/
theorem walkEntry_symlink (cfg : Config) (name : String) (target : Option String)
    (pfx : String) (isLast : Bool) (depth : Nat) (visited : List Nat) :
    walkEntry cfg name (FSNode.symlink target) pfx isLast depth visited
      = ([pfx ++ (if isLast then cfg.symbols.last else cfg.symbols.branch)
          ++ (match target with
              | some t => name ++ " -> " ++ t
              | none => name ++ " -> [Invalid Symlink]")], visited) := by
  cases target <;> rw [walkEntry] <;> simp [symlinkDisplay]

/-- C5: for a non-symlink directory entry the walker looks up the canonical
path in the visited set: if present it emits the entry line plus a
`"[Circular Link]"` marker and does not descend (visited unchanged, no
contents listed again); if absent it adds the canonical path and recurses with
depth + 1. -/
theorem walkEntry_circular_check (cfg : Config) (name : String) (rid : Nat)
    (entries : List (String × FSNode)) (pfx : String) (isLast : Bool)
    (depth : Nat) (visited : List Nat) :
    (rid ∈ visited →
      walkEntry cfg name (FSNode.dir rid entries) pfx isLast depth visited
        = ([pfx ++ (if isLast then cfg.symbols.last else cfg.symbols.branch) ++ name,
            pfx ++ cfg.symbols.indent ++ "[Circular Link]"], visited))
    ∧ (rid ∉ visited →
      walkEntry cfg name (FSNode.dir rid entries) pfx isLast depth visited
        = ((pfx ++ (if isLast then cfg.symbols.last else cfg.symbols.branch) ++ name)
            :: (walkDir cfg (FSNode.dir rid entries)
                 (pfx ++ (if isLast then "    " else cfg.symbols.indent)) (depth + 1)
                 (rid :: visited)).1,
           (walkDir cfg (FSNode.dir rid entries)
             (pfx ++ (if isLast then "    " else cfg.symbols.indent)) (depth + 1)
             (rid :: visited)).2)) := by
  constructor <;> intro h <;> rw [walkEntry] <;> simp [h]

/-- Witness for C5: both branches at concrete inputs. -/
theorem walkEntry_circular_check_witness :
    walkEntry c1cfg "d" (FSNode.dir 7 []) "" true 1 [7]
      = (["" ++ (if true then c1cfg.symbols.last else c1cfg.symbols.branch) ++ "d",
          "" ++ c1cfg.symbols.indent ++ "[Circular Link]"], [7])
    ∧ walkEntry c1cfg "d" (FSNode.dir 7 []) "" true 1 [9]
      = (("" ++ (if true then c1cfg.symbols.last else c1cfg.symbols.branch) ++ "d")
          :: (walkDir c1cfg (FSNode.dir 7 [])
               ("" ++ (if true then "    " else c1cfg.symbols.indent)) (1 + 1)
               (7 :: [9])).1,
         (walkDir c1cfg (FSNode.dir 7 [])
           ("" ++ (if true then "    " else c1cfg.symbols.indent)) (1 + 1)
           (7 :: [9])).2) :=
  ⟨(walkEntry_circular_check c1cfg "d" 7 [] "" true 1 [7]).1 (by decide),
   (walkEntry_circular_check c1cfg "d" 7 [] "" true 1 [9]).2 (by decide)⟩

/-- C6: when a maximum depth is configured and the current depth exceeds it,
`walk_dir` emits only the `"..."` truncation marker and returns before listing
anything, for every node — so nothing below that point produces lines. -/
theorem walkDir_depth_truncation (cfg : Config) (node : FSNode) (pfx : String)
    (depth : Nat) (visited : List Nat) (md : Nat) (h1 : cfg.max_depth = some md)
    (h2 : md < depth) :
    walkDir cfg node pfx depth visited
      = ([pfx ++ cfg.symbols.last ++ "..."], visited) := by
  have ht : truncated cfg depth = true := by
    simp [truncated, h1]
    omega
  rw [walkDir.eq_def, ht]
  simp

def c6cfg : Config := ⟨[], false, some 1, false, classicSymbols⟩

/-- Witness for C6: max-depth 1, current depth 2, on a directory that has
entries three levels deep. -/
theorem walkDir_depth_truncation_witness :
    walkDir c6cfg (FSNode.dir 1 [("x", FSNode.dir 2 [("y", FSNode.dir 3 [])])])
        "    " 2 [0]
      = (["    " ++ c6cfg.symbols.last ++ "..."], [0]) :=
  walkDir_depth_truncation c6cfg
    (FSNode.dir 1 [("x", FSNode.dir 2 [("y", FSNode.dir 3 [])])]) "    " 2 [0] 1
    rfl (by decide)

/-- C7: the walk is a total function (it never raises): a `PermissionError`
while listing a directory becomes a `"[Permission Denied]"` leaf under the
current prefix with no descent, any other listing error becomes
`"[Error: <message>]"` with no descent, and in both cases the enclosing
`for` loop continues with the remaining entries. -/
theorem walkDir_error_markers (cfg : Config) (rid : Nat) (msg : String)
    (name : String) (rest : List (String × FSNode)) (pfx : String) (depth : Nat)
    (visited : List Nat) (h : truncated cfg depth = false) :
    walkDir cfg (FSNode.dirPermErr rid) pfx depth visited
      = ([pfx ++ cfg.symbols.last ++ "[Permission Denied]"], visited)
    ∧ walkDir cfg (FSNode.dirOtherErr rid msg) pfx depth visited
      = ([pfx ++ cfg.symbols.last ++ "[Error: " ++ msg ++ "]"], visited)
    ∧ (walkItems cfg ((name, FSNode.dirPermErr rid) :: rest) pfx depth visited).1
      = (walkEntry cfg name (FSNode.dirPermErr rid) pfx rest.isEmpty depth visited).1
        ++ (walkItems cfg rest pfx depth
             (walkEntry cfg name (FSNode.dirPermErr rid) pfx rest.isEmpty depth
               visited).2).1 := by
  refine ⟨?_, ?_, ?_⟩
  · rw [walkDir, h]
    simp
  · rw [walkDir, h]
    simp
  · rw [walkItems]

/-- Witness for C7: an unreadable directory between two readable siblings. -/
theorem walkDir_error_markers_witness :
    walkDir c1cfg (FSNode.dirPermErr 3) "│   " 2 [0]
      = (["│   " ++ c1cfg.symbols.last ++ "[Permission Denied]"], [0])
    ∧ walkDir c1cfg (FSNode.dirOtherErr 3 "boom") "│   " 2 [0]
      = (["│   " ++ c1cfg.symbols.last ++ "[Error: " ++ "boom" ++ "]"], [0])
    ∧ (walkItems c1cfg
        [("p", FSNode.dirPermErr 3), ("z", FSNode.file 1 "m" true)] "│   " 2 [0]).1
      = (walkEntry c1cfg "p" (FSNode.dirPermErr 3) "│   "
          [("z", FSNode.file 1 "m" true)].isEmpty 2 [0]).1
        ++ (walkItems c1cfg [("z", FSNode.file 1 "m" true)] "│   " 2
             (walkEntry c1cfg "p" (FSNode.dirPermErr 3) "│   "
               [("z", FSNode.file 1 "m" true)].isEmpty 2 [0]).2).1 :=
  walkDir_error_markers c1cfg 3 "boom" "p" [("z", FSNode.file 1 "m" true)] "│   " 2 [0] rfl

/-- C8: with `show_metadata` enabled the `" [Size: ... bytes, Modified: ...]"`
suffix is appended exactly to plain-file lines whose stat calls succeed; a
failing stat is silently swallowed and the file line is still emitted without
the suffix; directory and symlink lines never carry the suffix. -/
theorem walkEntry_metadata (cfg : Config) (name : String) (size : Nat)
    (mtime : String) (rid : Nat) (entries : List (String × FSNode))
    (target : Option String) (pfx : String) (isLast : Bool) (depth : Nat)
    (visited : List Nat) (h : cfg.show_metadata = true) :
    walkEntry cfg name (FSNode.file size mtime true) pfx isLast depth visited
      = ([pfx ++ (if isLast then cfg.symbols.last else cfg.symbols.branch)
          ++ (name ++ " [Size: " ++ toString size ++ " bytes, Modified: "
              ++ mtime ++ "]")], visited)
    ∧ walkEntry cfg name (FSNode.file size mtime false) pfx isLast depth visited
      = ([pfx ++ (if isLast then cfg.symbols.last else cfg.symbols.branch)
          ++ name], visited)
    ∧ (walkEntry cfg name (FSNode.dir rid entries) pfx isLast depth
        visited).1.head?
      = some (pfx ++ (if isLast then cfg.symbols.last else cfg.symbols.branch)
          ++ name)
    ∧ walkEntry cfg name (FSNode.symlink target) pfx isLast depth visited
      = ([pfx ++ (if isLast then cfg.symbols.last else cfg.symbols.branch)
          ++ symlinkDisplay name target], visited) := by
  refine ⟨?_, ?_, ?_, ?_⟩
  · rw [walkEntry]
    simp [fileDisplay, h]
  · rw [walkEntry]
    simp [fileDisplay, h]
  · have := walkEntry_head cfg name (FSNode.dir rid entries) pfx isLast depth visited
    simpa [entryDisplay] using this
  · rw [walkEntry]

def c8cfg : Config := ⟨[], false, none, true, classicSymbols⟩

/-- Witness for C8 at concrete entries. -/
theorem walkEntry_metadata_witness :
    walkEntry c8cfg "f" (FSNode.file 12 "2024-01-01 00:00:00" true) "" false 1 []
      = (["" ++ (if false then c8cfg.symbols.last else c8cfg.symbols.branch)
          ++ ("f" ++ " [Size: " ++ toString 12 ++ " bytes, Modified: "
              ++ "2024-01-01 00:00:00" ++ "]")], [])
    ∧ walkEntry c8cfg "f" (FSNode.file 12 "2024-01-01 00:00:00" false) "" false 1 []
      = (["" ++ (if false then c8cfg.symbols.last else c8cfg.symbols.branch)
          ++ "f"], [])
    ∧ (walkEntry c8cfg "f" (FSNode.dir 4 []) "" false 1 []).1.head?
      = some ("" ++ (if false then c8cfg.symbols.last else c8cfg.symbols.branch)
          ++ "f")
    ∧ walkEntry c8cfg "f" (FSNode.symlink (some "t")) "" false 1 []
      = (["" ++ (if false then c8cfg.symbols.last else c8cfg.symbols.branch)
          ++ symlinkDisplay "f" (some "t")], []) :=
  walkEntry_metadata c8cfg "f" 12 "2024-01-01 00:00:00" 4 [] (some "t") "" false 1 [] rfl

/-- C9: every `"[Circular Link]"` marker line is emitted with the parent prefix
followed by the indent-continuation glyph and no branch/last connector — in
particular also when the already-visited directory is the last filtered entry
(`isLast = true`), whose descendants would otherwise get the blank four-space
padding rather than the indent glyph. -/
theorem circular_marker_uses_indent (cfg : Config) (name : String) (rid : Nat)
    (entries : List (String × FSNode)) (msg : String) (pfx : String)
    (isLast : Bool) (depth : Nat) (visited : List Nat) (h : rid ∈ visited) :
    walkEntry cfg name (FSNode.dir rid entries) pfx isLast depth visited
      = ([pfx ++ (if isLast then cfg.symbols.last else cfg.symbols.branch) ++ name,
          pfx ++ cfg.symbols.indent ++ "[Circular Link]"], visited)
    ∧ walkEntry cfg name (FSNode.dirPermErr rid) pfx isLast depth visited
      = ([pfx ++ (if isLast then cfg.symbols.last else cfg.symbols.branch) ++ name,
          pfx ++ cfg.symbols.indent ++ "[Circular Link]"], visited)
    ∧ walkEntry cfg name (FSNode.dirOtherErr rid msg) pfx isLast depth visited
      = ([pfx ++ (if isLast then cfg.symbols.last else cfg.symbols.branch) ++ name,
          pfx ++ cfg.symbols.indent ++ "[Circular Link]"], visited) := by
  refine ⟨?_, ?_, ?_⟩ <;> rw [walkEntry] <;> simp [h]

/-- Witness for C9, with the visited directory as last entry (`isLast = true`). -/
theorem circular_marker_uses_indent_witness :
    walkEntry c1cfg "d" (FSNode.dir 5 []) "│   " true 2 [5]
      = (["│   " ++ (if true then c1cfg.symbols.last else c1cfg.symbols.branch) ++ "d",
          "│   " ++ c1cfg.symbols.indent ++ "[Circular Link]"], [5])
    ∧ walkEntry c1cfg "d" (FSNode.dirPermErr 5) "│   " true 2 [5]
      = (["│   " ++ (if true then c1cfg.symbols.last else c1cfg.symbols.branch) ++ "d",
          "│   " ++ c1cfg.symbols.indent ++ "[Circular Link]"], [5])
    ∧ walkEntry c1cfg "d" (FSNode.dirOtherErr 5 "m") "│   " true 2 [5]
      = (["│   " ++ (if true then c1cfg.symbols.last else c1cfg.symbols.branch) ++ "d",
          "│   " ++ c1cfg.symbols.indent ++ "[Circular Link]"], [5]) :=
  circular_marker_uses_indent c1cfg "d" 5 [] "m" "│   " true 2 [5] (by decide)

/-- The characters of the literal `' │└├──+--\\'` passed to `str.lstrip`
(`lstrip` treats its argument as a set of characters: space, `│`, `└`, `├`,
`─`, `+`, `-` and backslash). -/
def stripChars : List Char := [' ', '│', '└', '├', '─', '+', '-', '\\']

/-- `line.lstrip(' │└├──+--\\')` (lines 136 and 160). -/
def lstripTree (s : String) : String :=
  String.mk (s.data.dropWhile (fun c => stripChars.contains c))

/-- `tree_str.split('\n')` at the character level: the segments between
newline characters, empty segments included; the result is never empty
(`''.split('\n') == ['']`). -/
def splitCh : List Char → List (List Char)
  | [] => [[]]
  | c :: rest =>
    if c = '\n' then [] :: splitCh rest
    else
      match splitCh rest with
      | [] => [[c]]
      | p :: ps => (c :: p) :: ps

/-- `tree_str.split('\n')`. -/
def splitLines (s : String) : List String :=
  (splitCh s.data).map (fun l => String.mk l)

/-- The nested dictionary `{"name": ..., "children": [...]}` built by
`tree_to_json`; every node carries exactly these two fields, children in the
order they were appended. -/
inductive JNode where
  | node (name : String) (children : List JNode)
deriving Repr

/-- The `"name"` field. -/
def JNode.name : JNode → String
  | JNode.node n _ => n

/-- The `"children"` field. -/
def JNode.children : JNode → List JNode
  | JNode.node _ cs => cs

/-- One stack entry of `tree_to_json`.  The Python stack holds `(node, depth)`
pairs of still-mutable dicts and `children` appends always go to `stack[-1]`,
so a node's children list only changes while that node is the top of the
stack.  A frame therefore keeps the node's name, its recorded depth and the
children appended so far; finalising the node at the moment its frame is
popped (attaching it to the frame below, where the Python code had appended
the then-empty dict at creation time) reproduces the mutation semantics. -/
structure Frame where
  name : String
  depth : Nat
  children : List JNode
deriving Repr

/-- Attaching a finished node as the last child of the frame below it. -/
def collapse1 (j : JNode) (f : Frame) : JNode :=
  JNode.node f.name (f.children ++ [j])

/-- The final value of the bottom frame's dict once every frame above it is
finished — what the Python `root` reference contains at return time when the
root frame was never popped. -/
def collapseOf : List Frame → Option JNode
  | [] => none
  | f :: rest => some (rest.foldl collapse1 (JNode.node f.name f.children))

/-- `while stack and stack[-1][1] >= depth: stack.pop()` (lines 139–140).
Each pop finalises the top frame's node.  When the pop empties the stack the
frame just finalised is the bottom one; the first time that happens the bottom
frame is the original root, whose finished value the returned `root` dict
keeps — it is recorded in the `Option JNode` component, and later
pop-to-empty results (orphaned subtrees unreachable from `root`) are
discarded. -/
def popGo (d : Nat) (f : Frame) : List Frame → Option JNode → List Frame × Option JNode
  | [], r =>
    if d ≤ f.depth then
      ([], match r with
           | none => some (JNode.node f.name f.children)
           | some j => some j)
    else ([f], r)
  | g :: gs, r =>
    if d ≤ f.depth then
      popGo d ⟨g.name, g.depth, g.children ++ [JNode.node f.name f.children]⟩ gs r
    else (f :: g :: gs, r)

/-- The full pop loop on a stack held top-first. -/
def popGE (d : Nat) (stack : List Frame) (r : Option JNode) :
    List Frame × Option JNode :=
  match stack with
  | [] => ([], r)
  | f :: rest => popGo d f rest r

/-- One iteration of the `for line in lines[1:]` loop of `tree_to_json`
(lines 135–143): strip, infer the depth, pop, append the new node to the new
top (deferred to its own pop here) and push it. -/
def t2jStep (st : List Frame × Option JNode) (line : String) :
    List Frame × Option JNode :=
  let stripped := lstripTree line
  let d := (line.length - stripped.length) / 4
  let popped := popGE d st.1 st.2
  (⟨stripped, d, []⟩ :: popped.1, popped.2)

/-- `tree_to_json` (lines 122–144): seed the stack with
`{"name": lines[0], "children": []}` at depth 0, run the loop and return the
root dict's final value. -/
def tree_to_json (tree_str : String) : JNode :=
  match splitLines tree_str with
  | [] => JNode.node "" []
  | l0 :: rest =>
    let final := rest.foldl t2jStep ([⟨l0, 0, []⟩], none)
    match final.2 with
    | some j => j
    | none => (collapseOf final.1).getD (JNode.node l0 [])

/-- The pop loop `while depth < stack[-1]: html += "</ul></li>\n"; stack.pop()`
of `tree_to_html` (lines 162–164), with the stack held top-first.  The bottom
`0` can never be popped (`depth < 0` is impossible), so the stack never
empties; the `[]` case is unreachable. -/
def t2hPops (d : Nat) : List Nat → List String × List Nat
  | [] => ([], [])
  | t :: rest =>
    if d < t then
      let r := t2hPops d rest
      ("</ul></li>\n" :: r.1, r.2)
    else ([], t :: rest)

/-- One iteration of the `for line in lines` loop of `tree_to_html`
(lines 159–168; unlike `tree_to_json` the first line is processed too):
strip, infer depth, close lists while the depth decreased, open one list if it
increased, then emit the list item.  The accumulator collects the string
chunks `+=` appends to `html`, in order. -/
def t2hStep (st : List String × List Nat) (line : String) :
    List String × List Nat :=
  let stripped := lstripTree line
  let d := (line.length - stripped.length) / 4
  let popped := t2hPops d st.2
  let acc1 := st.1 ++ popped.1
  let pushed :=
    match popped.2 with
    | t :: rest => if t < d then (acc1 ++ ["<ul>\n"], d :: t :: rest) else (acc1, t :: rest)
    | [] => (acc1, [])
  (pushed.1 ++ ["<li>" ++ stripped ++ "</li>\n"], pushed.2)

/-- `while len(stack) > 1: html += "</ul></li>\n"; stack.pop()` (lines 169–171):
the chunks appended after the loop over the lines. -/
def t2hCloseAll : List Nat → List String
  | [] => []
  | [_] => []
  | _ :: t :: rest => "</ul></li>\n" :: t2hCloseAll (t :: rest)

/-- The stack left after the final `while len(stack) > 1` loop. -/
def t2hEndStack : List Nat → List Nat
  | [] => []
  | [t] => [t]
  | _ :: t :: rest => t2hEndStack (t :: rest)

/-- All string chunks `tree_to_html` appends to `html`, in order: the initial
`"<ul>\n"` (line 157), the per-line emissions, the end-of-input closings and
the final `"</ul>"` (line 172). -/
def t2hChunks (tree_str : String) : List String :=
  let run := (splitLines tree_str).foldl t2hStep ([], [0])
  "<ul>\n" :: (run.1 ++ t2hCloseAll run.2 ++ ["</ul>"])

/-- `tree_to_html` (lines 146–173): the concatenation of the appended chunks. -/
def tree_to_html (tree_str : String) : String :=
  String.join (t2hChunks tree_str)

/-- The number of positions at which `pat` occurs in `l` as a contiguous
character run (none of the HTML tags counted below overlaps itself, so this is
the plain tag count). -/
def countOcc (pat : List Char) : List Char → Nat
  | [] => 0
  | c :: rest =>
    (if (c :: rest).take pat.length = pat then 1 else 0) + countOcc pat rest

theorem t2hPops_chunks (d : Nat) (s : List Nat) :
    (∀ c ∈ (t2hPops d s).1, c = "</ul></li>\n")
    ∧ (t2hPops d s).1.length + (t2hPops d s).2.length = s.length := by
  induction s with
  | nil => simp [t2hPops]
  | cons t rest ih =>
    rw [t2hPops]
    split
    · refine ⟨?_, by simp; omega⟩
      intro c hc
      simp at hc
      rcases hc with hc | hc
      · exact hc
      · exact ih.1 c hc
    · simp

theorem t2hPops_bottom (d : Nat) (s : List Nat) (h0 : s.getLast? = some 0) :
    (t2hPops d s).2 ≠ [] ∧ (t2hPops d s).2.getLast? = some 0 := by
  induction s with
  | nil => simp at h0
  | cons t rest ih =>
    rw [t2hPops]
    split
    · cases rest with
      | nil =>
        simp at h0
        omega
      | cons u us =>
        simp only
        exact ih (by rw [← h0, List.getLast?_cons_cons])
    · simp [h0]

theorem t2hCloseAll_chunks (s : List Nat) (h : s ≠ []) :
    (∀ c ∈ t2hCloseAll s, c = "</ul></li>\n")
    ∧ (t2hCloseAll s).length + 1 = s.length := by
  induction s with
  | nil => exact absurd rfl h
  | cons t rest ih =>
    cases rest with
    | nil => simp [t2hCloseAll]
    | cons u us =>
      rw [t2hCloseAll]
      have := ih (by simp)
      refine ⟨?_, ?_⟩
      · intro c hc
        simp at hc
        rcases hc with hc | hc
        · exact hc
        · exact this.1 c hc
      · have h2 := this.2
        simp only [List.length_cons] at h2 ⊢
        omega

theorem t2hEndStack_length (s : List Nat) (h : s ≠ []) :
    (t2hEndStack s).length = 1 := by
  induction s with
  | nil => exact absurd rfl h
  | cons t rest ih =>
    cases rest with
    | nil => simp [t2hEndStack]
    | cons u us =>
      rw [t2hEndStack]
      exact ih (by simp)

/-- Whether the first characters of `s` are exactly `pat`: the chunk-level tag
detector used to count emitted `<ul>` / `</ul>` tags (a list-item chunk always
begins with the four characters of `"<li>"`, so its payload cannot forge a
leading list tag). -/
def startsWithCh (pat : List Char) (s : String) : Bool :=
  decide (s.data.take pat.length = pat)

theorem take_of_take_eq {l pat : List Char} {m : Nat}
    (h : l.take pat.length = pat) (hm : m ≤ pat.length) : l.take m = pat.take m := by
  rw [← h, List.take_take, Nat.min_eq_left hm]

theorem liChunk_not_ul (t : String) :
    startsWithCh "<ul>".data ("<li>" ++ t ++ "</li>\n") = false := by
  simp only [startsWithCh, String.data_append, decide_eq_false_iff_not]
  intro h
  have h2 := take_of_take_eq h (by decide : (2:Nat) ≤ "<ul>".data.length)
  rw [List.append_assoc, List.take_append_of_le_length
    (by decide : (2:Nat) ≤ "<li>".data.length)] at h2
  exact absurd h2 (by decide)

theorem liChunk_not_close (t : String) :
    startsWithCh "</ul>".data ("<li>" ++ t ++ "</li>\n") = false := by
  simp only [startsWithCh, String.data_append, decide_eq_false_iff_not]
  intro h
  have h2 := take_of_take_eq h (by decide : (2:Nat) ≤ "</ul>".data.length)
  rw [List.append_assoc, List.take_append_of_le_length
    (by decide : (2:Nat) ≤ "<li>".data.length)] at h2
  exact absurd h2 (by decide)

/-- The possible shapes of a chunk emitted by the line loop of `tree_to_html`. -/
def loopChunk (c : String) : Prop :=
  c = "<ul>\n" ∨ c = "</ul></li>\n" ∨ ∃ t, c = "<li>" ++ t ++ "</li>\n"

theorem loopChunk_counts {c : String} (h : loopChunk c) :
    (startsWithCh "<ul>".data c = true ↔ c = "<ul>\n")
    ∧ (startsWithCh "</ul>".data c = true ↔ c = "</ul></li>\n") := by
  rcases h with h | h | ⟨t, h⟩ <;> subst h
  · exact ⟨by decide, by decide⟩
  · exact ⟨by decide, by decide⟩
  · constructor
    · rw [liChunk_not_ul t]
      constructor
      · intro h2; exact absurd h2 (by decide)
      · intro h2
        have := congrArg String.data h2
        simp [String.data_append] at this
    · rw [liChunk_not_close t]
      constructor
      · intro h2; exact absurd h2 (by decide)
      · intro h2
        have := congrArg String.data h2
        simp [String.data_append] at this

/-- Chunk begins with an opening `<ul>` tag. -/
def ulOpenP (c : String) : Bool := startsWithCh "<ul>".data c

/-- Chunk begins with a closing `</ul>` tag. -/
def ulCloseP (c : String) : Bool := startsWithCh "</ul>".data c

theorem t2hStep_invariant (st : List String × List Nat) (line : String)
    (h1 : st.2 ≠ []) (h2 : st.2.getLast? = some 0)
    (h3 : st.1.countP ulOpenP + 1 = st.1.countP ulCloseP + st.2.length)
    (h4 : ∀ c ∈ st.1, loopChunk c) :
    (t2hStep st line).2 ≠ []
    ∧ (t2hStep st line).2.getLast? = some 0
    ∧ (t2hStep st line).1.countP ulOpenP + 1
      = (t2hStep st line).1.countP ulCloseP + (t2hStep st line).2.length
    ∧ ∀ c ∈ (t2hStep st line).1, loopChunk c := by
  rw [t2hStep]
  simp only
  set d := (line.length - (lstripTree line).length) / 4 with hd
  have hp := t2hPops_chunks d st.2
  have hb := t2hPops_bottom d st.2 h2
  have hpopClose : (t2hPops d st.2).1.countP ulCloseP
      = (t2hPops d st.2).1.length := by
    rw [List.countP_eq_length]
    intro c hc
    rw [hp.1 c hc]
    decide
  have hpopOpen : (t2hPops d st.2).1.countP ulOpenP = 0 := by
    rw [List.countP_eq_zero]
    intro c hc
    rw [hp.1 c hc]
    decide
  have hliOpen : ulOpenP ("<li>" ++ lstripTree line ++ "</li>\n") = false :=
    liChunk_not_ul _
  have hliClose : ulCloseP ("<li>" ++ lstripTree line ++ "</li>\n") = false :=
    liChunk_not_close _
  obtain ⟨t, rest, hrest⟩ : ∃ t rest, (t2hPops d st.2).2 = t :: rest := by
    rcases hpop : (t2hPops d st.2).2 with _ | ⟨t, rest⟩
    · exact absurd hpop hb.1
    · exact ⟨t, rest, rfl⟩
  rw [hrest]
  have hlast0 : (t :: rest).getLast? = some 0 := by rw [← hrest]; exact hb.2
  have hlen := hp.2
  rw [hrest] at hlen
  simp only [List.length_cons] at hlen
  by_cases hlt : t < d
  · simp only [hlt, if_true]
    refine ⟨by simp, ?_, ?_, ?_⟩
    · rcases rest with _ | ⟨u, us⟩
      · simp at hlast0 ⊢
        omega
      · rw [List.getLast?_cons_cons] at hlast0
        rw [List.getLast?_cons_cons, List.getLast?_cons_cons]
        exact hlast0
    · simp [List.countP_append, List.countP_cons, hliOpen, hliClose,
        List.countP_nil, List.length_cons, hpopClose, hpopOpen,
        (by decide : ulOpenP "<ul>\n" = true), (by decide : ulCloseP "<ul>\n" = false)]
      omega
    · intro c hc
      simp only [List.append_assoc, List.mem_append, List.mem_singleton] at hc
      rcases hc with hc | hc | hc | hc
      · exact h4 c hc
      · exact Or.inr (Or.inl (hp.1 c hc))
      · exact Or.inl hc
      · exact Or.inr (Or.inr ⟨lstripTree line, hc⟩)
  · simp only [hlt, if_false]
    refine ⟨by simp, hlast0, ?_, ?_⟩
    · simp [List.countP_append, List.countP_cons, hliOpen, hliClose,
        List.countP_nil, List.length_cons, hpopClose, hpopOpen]
      omega
    · intro c hc
      simp only [List.mem_append, List.mem_singleton] at hc
      rcases hc with (hc | hc) | hc
      · exact h4 c hc
      · exact Or.inr (Or.inl (hp.1 c hc))
      · exact Or.inr (Or.inr ⟨lstripTree line, hc⟩)

/-- C3 counterexample: on the input `"a\n    b"` (one nested level) the
rendered HTML contains two `<li>` openings but three `</li>` closings — each
list-closing emission `"</ul></li>\n"` carries an extra `</li>` — so the
claimed `<li>`/`</li>` balance fails on this concrete input (the `<ul>`
counts, 2 and 2, do balance here). -/
theorem tree_to_html_li_unbalanced :
    countOcc "<li>".data (tree_to_html "a\n    b").data = 2
    ∧ countOcc "</li>".data (tree_to_html "a\n    b").data = 3
    ∧ ¬(countOcc "<li>".data (tree_to_html "a\n    b").data
        = countOcc "</li>".data (tree_to_html "a\n    b").data) := by
  refine ⟨by decide, by decide, by decide⟩

/-- C3 (amended): for every input string the emitted `<ul>` openings equal the
emitted `</ul>` closings and the open-list stack is back at depth 1 after the
final closing loop; every emitted chunk is the initial/nested `"<ul>\n"`, a
list closing `"</ul></li>\n"`, the final `"</ul>"`, or one list item
`"<li>" ++ text ++ "</li>\n"` — so `</li>` closings exceed `<li>` openings by
exactly the number of list closings rather than matching them. -/
theorem tree_to_html_balanced (s : String) :
    (t2hChunks s).countP ulOpenP = (t2hChunks s).countP ulCloseP
    ∧ (t2hEndStack ((splitLines s).foldl t2hStep ([], [0])).2).length = 1
    ∧ ∀ c ∈ t2hChunks s, c = "<ul>\n" ∨ c = "</ul></li>\n" ∨ c = "</ul>"
        ∨ ∃ t, c = "<li>" ++ t ++ "</li>\n" := by
  have hinv : ∀ (lines : List String) (st : List String × List Nat),
      (st.2 ≠ [] ∧ st.2.getLast? = some 0
        ∧ st.1.countP ulOpenP + 1 = st.1.countP ulCloseP + st.2.length
        ∧ ∀ c ∈ st.1, loopChunk c) →
      ((lines.foldl t2hStep st).2 ≠ []
        ∧ (lines.foldl t2hStep st).2.getLast? = some 0
        ∧ (lines.foldl t2hStep st).1.countP ulOpenP + 1
          = (lines.foldl t2hStep st).1.countP ulCloseP
            + (lines.foldl t2hStep st).2.length
        ∧ ∀ c ∈ (lines.foldl t2hStep st).1, loopChunk c) := by
    intro lines
    induction lines with
    | nil => intro st h; exact h
    | cons line rest ih =>
      intro st h
      exact ih _ (t2hStep_invariant st line h.1 h.2.1 h.2.2.1 h.2.2.2)
  have hrun := hinv (splitLines s) ([], [0])
    ⟨by simp, by simp, by simp, by intro c hc; simp at hc⟩
  set run := (splitLines s).foldl t2hStep ([], [0]) with hdef
  have hclose := t2hCloseAll_chunks run.2 hrun.1
  have hccount : (t2hCloseAll run.2).countP ulCloseP = (t2hCloseAll run.2).length := by
    rw [List.countP_eq_length]
    intro c hc
    rw [hclose.1 c hc]
    decide
  have hocount : (t2hCloseAll run.2).countP ulOpenP = 0 := by
    rw [List.countP_eq_zero]
    intro c hc
    rw [hclose.1 c hc]
    decide
  refine ⟨?_, t2hEndStack_length run.2 hrun.1, ?_⟩
  · rw [t2hChunks]
    simp only [← hdef, List.countP_cons, List.countP_append, hccount, hocount,
      List.countP_nil]
    have h1 : ulOpenP "<ul>\n" = true := by decide
    have h2 : ulCloseP "<ul>\n" = false := by decide
    have h3 : ulOpenP "</ul>" = false := by decide
    have h4 : ulCloseP "</ul>" = true := by decide
    simp only [h1, h2, h3, h4]
    have hc2 := hclose.2
    have hr := hrun.2.2.1
    simp
    omega
  · rw [t2hChunks]
    simp only [← hdef]
    intro c hc
    simp only [List.mem_cons, List.mem_append, List.mem_singleton] at hc
    rcases hc with hc | ((hc | hc) | (hc | hc))
    · exact Or.inl hc
    · rcases hrun.2.2.2 c hc with h | h | ⟨t, h⟩
      · exact Or.inl h
      · exact Or.inr (Or.inl h)
      · exact Or.inr (Or.inr (Or.inr ⟨t, h⟩))
    · exact Or.inr (Or.inl (hclose.1 c hc))
    · exact Or.inr (Or.inr (Or.inl hc))
    · exact absurd hc (List.not_mem_nil c)

/-- Witness for the amended C3 at the input `"a"`. -/
theorem tree_to_html_balanced_witness :
    (t2hChunks "a").countP ulOpenP = (t2hChunks "a").countP ulCloseP
    ∧ (t2hEndStack ((splitLines "a").foldl t2hStep ([], [0])).2).length = 1
    ∧ ("<ul>\n" = "<ul>\n" ∨ "<ul>\n" = "</ul></li>\n" ∨ "<ul>\n" = "</ul>"
        ∨ ∃ t, "<ul>\n" = "<li>" ++ t ++ "</li>\n") :=
  ⟨(tree_to_html_balanced "a").1, (tree_to_html_balanced "a").2.1,
   (tree_to_html_balanced "a").2.2 "<ul>\n" (by decide)⟩

/-- The names of a reconstructed tree in preorder (node before its children,
children in stored order). -/
def preorderNames : JNode → List String
  | JNode.node n cs => n :: (cs.attach.map (fun c => preorderNames c.1)).flatten
termination_by j => sizeOf j
decreasing_by
  have := List.sizeOf_lt_of_mem c.2
  simp only [JNode.node.sizeOf_spec]
  omega

theorem preorderNames_node (n : String) (cs : List JNode) :
    preorderNames (JNode.node n cs) = n :: (cs.map preorderNames).flatten := by
  rw [preorderNames]
  simp [List.attach_map_coe]

theorem foldl_collapse1_name (rest : List Frame) (b1 b2 : JNode)
    (h : b1.name = b2.name) :
    (rest.foldl collapse1 b1).name = (rest.foldl collapse1 b2).name := by
  induction rest generalizing b1 b2 with
  | nil => exact h
  | cons g gs ih =>
    simp only [List.foldl_cons]
    exact ih _ _ rfl

theorem foldl_collapse1_preorder (rest : List Frame) (b1 b2 : JNode)
    (t : List String) (h : preorderNames b2 = preorderNames b1 ++ t) :
    preorderNames (rest.foldl collapse1 b2)
      = preorderNames (rest.foldl collapse1 b1) ++ t := by
  induction rest generalizing b1 b2 with
  | nil => exact h
  | cons g gs ih =>
    simp only [List.foldl_cons]
    apply ih
    simp only [collapse1, preorderNames_node, List.map_append, List.map_cons,
      List.map_nil, List.flatten_append, List.flatten_cons, List.flatten_nil,
      List.append_nil, h]
    simp

theorem splitCh_ne_nil : ∀ (l : List Char), splitCh l ≠ []
  | [] => by rw [splitCh]; simp
  | c :: rest => by
    rw [splitCh]
    split
    · simp
    · match h : splitCh rest with
      | [] => simp
      | p :: ps => simp

theorem splitLines_ne_nil (s : String) : splitLines s ≠ [] := by
  rw [splitLines]
  simp only [ne_eq, List.map_eq_nil_iff]
  exact splitCh_ne_nil s.data

theorem popGo_some (d : Nat) (j : JNode) : ∀ (rest : List Frame) (f : Frame),
    (popGo d f rest (some j)).2 = some j
  | [], f => by
    rw [popGo]
    split <;> rfl
  | g :: gs, f => by
    rw [popGo]
    split
    · exact popGo_some d j gs _
    · rfl

theorem popGE_some (d : Nat) (stack : List Frame) (j : JNode) :
    (popGE d stack (some j)).2 = some j := by
  match stack with
  | [] => rfl
  | f :: rest => exact popGo_some d j rest f

/-- The dict the Python `root` reference denotes in a given loop state: the
recorded first pop-to-empty value if the original root frame was already
popped, else the bottom frame's eventual value. -/
def realized (st : List Frame × Option JNode) : Option JNode :=
  match st.2 with
  | some j => some j
  | none => collapseOf st.1

theorem collapseOf_isSome (stack : List Frame) (h : stack ≠ []) :
    ∃ jb, collapseOf stack = some jb := by
  rcases stack with _ | ⟨f, fs⟩
  · exact absurd rfl h
  · exact ⟨_, rfl⟩

theorem popGo_none (d : Nat) : ∀ (rest : List Frame) (f : Frame),
    ((popGo d f rest none).2 = none ∧ (popGo d f rest none).1 ≠ []
      ∧ collapseOf (popGo d f rest none).1 = collapseOf (f :: rest))
    ∨ ((popGo d f rest none).1 = []
      ∧ (popGo d f rest none).2 = collapseOf (f :: rest))
  | [], f => by
    rw [popGo]
    split
    · right
      simp [collapseOf]
    · left
      simp
  | g :: gs, f => by
    rw [popGo]
    split
    · have hcol : collapseOf (⟨g.name, g.depth,
          g.children ++ [JNode.node f.name f.children]⟩ :: gs)
          = collapseOf (f :: g :: gs) := by
        simp [collapseOf, List.foldl_cons, collapse1]
      rcases popGo_none d gs ⟨g.name, g.depth,
          g.children ++ [JNode.node f.name f.children]⟩ with h | h
      · left
        rw [hcol] at h
        exact h
      · right
        rw [hcol] at h
        exact h
    · left
      simp

theorem popGE_none (d : Nat) : ∀ (stack : List Frame), stack ≠ [] →
    ((popGE d stack none).2 = none ∧ (popGE d stack none).1 ≠ []
      ∧ collapseOf (popGE d stack none).1 = collapseOf stack)
    ∨ ((popGE d stack none).1 = [] ∧ (popGE d stack none).2 = collapseOf stack)
  | [], h => absurd rfl h
  | f :: rest, _ => popGo_none d rest f

theorem t2jStep_evolution (stack : List Frame) (r : Option JNode) (line : String)
    (h1 : stack ≠ []) :
    (t2jStep (stack, r) line).1 ≠ []
    ∧ ∃ j j', realized (stack, r) = some j
        ∧ realized (t2jStep (stack, r) line) = some j'
        ∧ j'.name = j.name
        ∧ (preorderNames j' = preorderNames j
           ∨ preorderNames j' = preorderNames j ++ [lstripTree line]) := by
  rw [t2jStep]
  simp only
  set d := (line.length - (lstripTree line).length) / 4 with hd
  refine ⟨by simp, ?_⟩
  rcases r with _ | j0
  · obtain ⟨jb, hjb⟩ := collapseOf_isSome stack h1
    rcases popGE_none d stack h1 with hcase | hcase
    · obtain ⟨top, rest2, htop⟩ : ∃ top rest2, (popGE d stack none).1 = top :: rest2 := by
        rcases hpop : (popGE d stack none).1 with _ | ⟨top, rest2⟩
        · exact absurd hpop hcase.2.1
        · exact ⟨top, rest2, rfl⟩
      have hcol := hcase.2.2
      rw [htop, hjb] at hcol
      rw [collapseOf] at hcol
      have hcol' : rest2.foldl collapse1 (JNode.node top.name top.children) = jb :=
        Option.some.inj hcol
      refine ⟨jb, rest2.foldl collapse1
        (JNode.node top.name (top.children ++ [JNode.node (lstripTree line) []])),
        ?_, ?_, ?_, ?_⟩
      · simp only [realized]
        exact hjb
      · simp only [realized, hcase.1, htop]
        rw [collapseOf]
        simp only [List.foldl_cons]
        rfl
      · rw [← hcol']
        exact foldl_collapse1_name rest2 _ _ rfl
      · right
        rw [← hcol']
        apply foldl_collapse1_preorder
        simp only [preorderNames_node, List.map_append, List.map_cons, List.map_nil,
          List.flatten_append, List.flatten_cons, List.flatten_nil, List.append_nil]
        simp [preorderNames_node]
    · refine ⟨jb, jb, ?_, ?_, rfl, Or.inl rfl⟩
      · simp only [realized]
        exact hjb
      · simp only [realized, hcase.1, hcase.2, hjb]
  · refine ⟨j0, j0, rfl, ?_, rfl, Or.inl rfl⟩
    simp only [realized, popGE_some]

theorem t2jRun_evolution (lines : List String) :
    ∀ (stack : List Frame) (r : Option JNode), stack ≠ [] →
    ∀ j, realized (stack, r) = some j →
    ∃ j', (lines.foldl t2jStep (stack, r)).1 ≠ []
      ∧ realized (lines.foldl t2jStep (stack, r)) = some j'
      ∧ j'.name = j.name
      ∧ List.Sublist (preorderNames j') (preorderNames j ++ lines.map lstripTree) := by
  induction lines with
  | nil =>
    intro stack r h1 j hj
    exact ⟨j, h1, hj, rfl, by simp⟩
  | cons line rest ih =>
    intro stack r h1 j hj
    obtain ⟨hne, j1, j1', hj1, hj1', hname, hpre⟩ := t2jStep_evolution stack r line h1
    rw [hj] at hj1
    obtain rfl : j = j1 := Option.some.inj hj1
    rcases hst : t2jStep (stack, r) line with ⟨stack', r'⟩
    rw [hst] at hne hj1'
    obtain ⟨j', hfin1, hfin2, hfin3, hfin4⟩ := ih stack' r' hne j1' hj1'
    refine ⟨j', ?_, ?_, ?_, ?_⟩
    · simpa [hst] using hfin1
    · simpa [hst] using hfin2
    · rw [hfin3, hname]
    · have htarget : preorderNames j ++ (line :: rest).map lstripTree
          = (preorderNames j ++ [lstripTree line]) ++ rest.map lstripTree := by
        simp
      rw [htarget]
      rcases hpre with hpre | hpre
      · refine hfin4.trans ?_
        rw [hpre]
        exact List.Sublist.append (List.sublist_append_left _ _)
          (List.Sublist.refl _)
      · rw [← hpre]
        exact hfin4

/-- C10: `tree_to_json` is total (the embedding is a plain function; `lines[0]`
exists even for the empty input because `split('\n')` never returns an empty
list), every node of the result is exactly a name/children pair by the type of
`JNode`, the root's `"name"` is the entire first input line with nothing
stripped, and the node names appear in input-line order: the preorder name
sequence is a subsequence of the first line followed by the stripped remaining
lines. -/
theorem tree_to_json_total_behavior (s : String) :
    (tree_to_json s).name = (splitLines s).headD ""
    ∧ List.Sublist (preorderNames (tree_to_json s))
        (((splitLines s).headD "") :: ((splitLines s).tail.map lstripTree)) := by
  rcases h : splitLines s with _ | ⟨l0, rest⟩
  · exact absurd h (splitLines_ne_nil s)
  have hval : tree_to_json s
      = (match (rest.foldl t2jStep ([⟨l0, 0, []⟩], none)).2 with
         | some j => j
         | none => (collapseOf (rest.foldl t2jStep ([⟨l0, 0, []⟩], none)).1).getD
             (JNode.node l0 [])) := by
    rw [tree_to_json.eq_def, h]
  have hinit : realized ([⟨l0, 0, []⟩], none) = some (JNode.node l0 []) := rfl
  obtain ⟨j', hfin1, hfin2, hfin3, hfin4⟩ :=
    t2jRun_evolution rest [⟨l0, 0, []⟩] none (by simp) (JNode.node l0 []) hinit
  have hjson : tree_to_json s = j' := by
    rw [hval]
    rcases hfs : rest.foldl t2jStep ([⟨l0, 0, []⟩], none) with ⟨fstack, fr⟩
    rw [hfs] at hfin2
    rcases fr with _ | jf
    · simp only [realized] at hfin2
      simp only
      rw [hfin2]
      rfl
    · simp only [realized] at hfin2
      simp only
      exact Option.some.inj hfin2
  rw [hjson]
  constructor
  · rw [hfin3]
    simp [JNode.name]
  · simp only [List.headD_cons, List.tail_cons]
    refine hfin4.trans ?_
    simp [preorderNames_node]

/-- A pure nesting shape: the parent/child relation with names and metadata
forgotten (used to compare the reconstructed JSON nesting with the original
directory nesting). -/
inductive PTree where
  | node (children : List PTree)
deriving Repr

mutual

/-- The nesting shape of a reconstructed JSON node. -/
def jshape : JNode → PTree
  | JNode.node _ cs => PTree.node (jshapeList cs)

def jshapeList : List JNode → List PTree
  | [] => []
  | c :: cs => jshape c :: jshapeList cs

end

mutual

/-- The number of nodes of a reconstructed JSON tree. -/
def countJ : JNode → Nat
  | JNode.node _ cs => 1 + countJList cs

def countJList : List JNode → Nat
  | [] => 0
  | c :: cs => countJ c + countJList cs

end

mutual

/-- An injective balanced-parenthesis encoding of a shape (gives a decidable
observable for separating two shapes). -/
def ptEnc : PTree → List Bool
  | PTree.node cs => true :: (ptEncList cs ++ [false])

def ptEncList : List PTree → List Bool
  | [] => []
  | c :: cs => ptEnc c ++ ptEncList cs

end

/-- A name the depth-inference of the renderers handles faithfully: nonempty,
not beginning with one of the stripped connector/indent characters, and free
of newlines (filesystem names never contain `'\n'`). -/
def goodName (s : String) : Bool :=
  match s.data with
  | [] => false
  | c :: rest => !(stripChars.contains c) && !((c :: rest).contains '\n')

mutual

/-- A plain directory tree: every node is a regular file or a readable
directory (no symlinks, no listing errors) and every entry name is good. -/
def cleanNode : FSNode → Bool
  | FSNode.file _ _ _ => true
  | FSNode.dir _ entries => cleanEntries entries
  | _ => false

def cleanEntries : List (String × FSNode) → Bool
  | [] => true
  | (name, node) :: rest => goodName name && cleanNode node && cleanEntries rest

end

mutual

/-- All canonical-path identifiers of directories in a subtree. -/
def ridsOf : FSNode → List Nat
  | FSNode.dir rid entries => rid :: ridsOfEntries entries
  | FSNode.dirPermErr rid => [rid]
  | FSNode.dirOtherErr rid _ => [rid]
  | _ => []

def ridsOfEntries : List (String × FSNode) → List Nat
  | [] => []
  | (_, node) :: rest => ridsOf node ++ ridsOfEntries rest

end

theorem mem_sortFiltered {cfg : Config} {l : List (String × FSNode)}
    {e : String × FSNode} (h : e ∈ sortFiltered cfg l) : e ∈ l := by
  unfold sortFiltered filterExcl at h
  have h1 := (List.mem_filter.mp h).1
  unfold filterHidden at h1
  have h2 : e ∈ sortItems l := by
    by_cases hh : cfg.include_hidden
    · simpa [hh] using h1
    · simp only [hh, if_false] at h1
      exact (List.mem_filter.mp h1).1
  unfold sortItems at h2
  exact List.mem_mergeSort.mp h2

mutual

/-- The JSON node the round trip is expected to rebuild for one filtered
entry: its display name with, for a readable directory, the recursively
rebuilt filtered children in walk order. -/
def jnodeOf (cfg : Config) (e : String × FSNode) : JNode :=
  match e with
  | (name, FSNode.dir rid entries) =>
    JNode.node (entryDisplay cfg name (FSNode.dir rid entries))
      (jnodeList cfg (sortFiltered cfg entries))
  | (name, node) => JNode.node (entryDisplay cfg name node) []
termination_by (sizeOf e, 0)
decreasing_by
  apply Prod.Lex.left
  have := sizeOf_sortFiltered_le cfg entries
  simp only [FSNode.dir.sizeOf_spec, Prod.mk.sizeOf_spec]
  omega

def jnodeList (cfg : Config) (items : List (String × FSNode)) : List JNode :=
  match items with
  | [] => []
  | e :: rest => jnodeOf cfg e :: jnodeList cfg rest
termination_by (sizeOf items, 1)
decreasing_by
  · apply Prod.Lex.left
    simp only [List.cons.sizeOf_spec]
    omega
  · apply Prod.Lex.left
    simp only [List.cons.sizeOf_spec]
    omega

end

mutual

/-- The nesting of the original (filtered) directory tree as the walk lists
it: one shape node per entry surviving the filters, children in walk order. -/
def fsShape (cfg : Config) (node : FSNode) : PTree :=
  match node with
  | FSNode.dir _ entries => PTree.node (fsShapeList cfg (sortFiltered cfg entries))
  | _ => PTree.node []
termination_by (sizeOf node, 0)
decreasing_by
  apply Prod.Lex.left
  have := sizeOf_sortFiltered_le cfg entries
  simp only [FSNode.dir.sizeOf_spec]
  omega

def fsShapeList (cfg : Config) (items : List (String × FSNode)) : List PTree :=
  match items with
  | [] => []
  | (_, node) :: rest => fsShape cfg node :: fsShapeList cfg rest
termination_by (sizeOf items, 1)
decreasing_by
  · apply Prod.Lex.left
    simp only [List.cons.sizeOf_spec, Prod.mk.sizeOf_spec]
    omega
  · apply Prod.Lex.left
    simp only [List.cons.sizeOf_spec]
    omega

end

def c2cfg : Config := ⟨[], false, none, false, classicSymbols⟩

def c2entries : List (String × FSNode) :=
  [("----d", FSNode.dir 1 [("e", FSNode.file 0 "m" true)])]

/-- An all-ASCII directory tree: the root contains one directory `----d`
holding one file `e`. -/
def c2root : FSNode := FSNode.dir 0 c2entries

/-- C2 counterexample: entry names may be pure ASCII and still break the
round trip.  With Classic symbols, the directory `----d` (an ASCII name
beginning with `-`, one of the characters `tree_to_json` strips) inside the
root renders as `"└── ----d"`; stripping removes the four `-` as well, so the
inferred depth is 2 instead of 1, the next line `"    └── e"` (also depth 2)
pops it, and `e` is attached to the root: the reconstruction makes `d` and `e`
siblings instead of the original chain root → `----d` → `e`, so the nesting
part of the claim fails (the node count, 3 = 3, does hold here). -/
theorem round_trip_ascii_cx :
    ¬(countJ (tree_to_json (generate_tree c2cfg "r" c2root))
        = (treeLines c2cfg "r" c2root).length
      ∧ jshape (tree_to_json (generate_tree c2cfg "r" c2root))
        = fsShape c2cfg c2root) := by
  intro h
  have hgen : generate_tree c2cfg "r" c2root = "r\n└── ----d\n    └── e" := by
    simp +decide [generate_tree, treeLines, walkDir, walkItems, walkEntry,
      sortFiltered, sortItems, filterHidden, filterExcl, c2cfg, c2entries,
      c2root, truncated, joinLines, classicSymbols, List.filter_cons, hiddenName]
  have hfs : fsShape c2cfg c2root = PTree.node [PTree.node [PTree.node []]] := by
    simp +decide [fsShape, fsShapeList, sortFiltered, sortItems, filterHidden,
      filterExcl, c2cfg, c2entries, c2root, List.filter_cons, hiddenName]
  have h2 := h.2
  rw [hgen, hfs] at h2
  have h3 := congrArg ptEnc h2
  rw [(by decide : ptEnc (jshape (tree_to_json "r\n└── ----d\n    └── e"))
      = [true, true, false, true, false, false])] at h3
  exact absurd h3 (by decide)

/-- The frame sitting below a popped region once the line at the popping
depth has been processed: the collapsed previous subtree (if any) has been
attached as its last child. -/
def attachF (A : List Frame) (p : Frame) : Frame :=
  match collapseOf A with
  | none => p
  | some j => ⟨p.name, p.depth, p.children ++ [j]⟩

theorem attachF_name (A : List Frame) (p : Frame) :
    (attachF A p).name = p.name ∧ (attachF A p).depth = p.depth := by
  unfold attachF
  cases collapseOf A <;> simp

theorem popGo_stay (d : Nat) (q : Frame) (rest : List Frame) (r : Option JNode)
    (h : q.depth < d) : popGo d q rest r = (q :: rest, r) := by
  cases rest <;> rw [popGo.eq_def] <;> simp [Nat.not_le.mpr h]

theorem popGE_pops (d : Nat) : ∀ (A : List Frame) (p : Frame) (R : List Frame),
    (∀ f ∈ A, d ≤ f.depth) → p.depth < d →
    popGE d (A ++ p :: R) none = (attachF A p :: R, none)
  | [], p, R => fun _ hp => by
    rw [List.nil_append]
    show popGo d p R none = _
    rw [popGo_stay d p R none hp]
    simp [attachF, collapseOf]
  | [f], p, R => fun hA hp => by
    rw [List.cons_append, List.nil_append]
    show popGo d f (p :: R) none = _
    rw [popGo.eq_def]
    simp only [if_pos (hA f (by simp))]
    rw [popGo_stay d ⟨p.name, p.depth,
      p.children ++ [JNode.node f.name f.children]⟩ R none hp]
    simp [attachF, collapseOf]
  | f :: g :: A3, p, R => fun hA hp => by
    have hstep : popGE d ((f :: g :: A3) ++ p :: R) none
        = popGE d ((⟨g.name, g.depth, g.children ++ [JNode.node f.name f.children]⟩
            :: A3) ++ p :: R) none := by
      show popGo d f (g :: (A3 ++ p :: R)) none = _
      rw [popGo.eq_def]
      simp only [if_pos (hA f (by simp))]
      rfl
    rw [hstep]
    rw [popGE_pops d (⟨g.name, g.depth,
        g.children ++ [JNode.node f.name f.children]⟩ :: A3) p R
      (by
        intro x hx
        rcases List.mem_cons.mp hx with rfl | hx2
        · exact hA g (by simp)
        · exact hA x (by simp only [List.mem_cons]; right; right; exact hx2))
      hp]
    have : collapseOf (⟨g.name, g.depth,
        g.children ++ [JNode.node f.name f.children]⟩ :: A3)
        = collapseOf (f :: g :: A3) := by
      simp [collapseOf, List.foldl_cons, collapse1]
    simp only [attachF, this]
termination_by A => A.length
decreasing_by
  simp

theorem collapseOf_append_single (xs : List Frame) (f : Frame) :
    collapseOf (xs ++ [f])
      = some (match collapseOf xs with
              | none => JNode.node f.name f.children
              | some j => collapse1 j f) := by
  cases xs with
  | nil => simp [collapseOf]
  | cons x rest =>
    simp [collapseOf, List.foldl_append, collapse1]

theorem lstrip_line (pfx conn disp : String)
    (hp : ∀ c ∈ pfx.data, c ∈ stripChars)
    (hc : ∀ c ∈ conn.data, c ∈ stripChars)
    (hd : ∃ ch rest, disp.data = ch :: rest ∧ ch ∉ stripChars) :
    lstripTree (pfx ++ conn ++ disp) = disp := by
  obtain ⟨ch, rest, hdd, hch⟩ := hd
  unfold lstripTree
  rw [String.data_append, String.data_append]
  have hall : ∀ c ∈ pfx.data ++ conn.data, (fun c => stripChars.contains c) c = true := by
    intro c hcc
    simp only [List.elem_eq_mem, decide_eq_true_eq]
    rcases List.mem_append.mp hcc with h | h
    · exact hp c h
    · exact hc c h
  rw [List.append_assoc, ← List.append_assoc, List.dropWhile_append]
  rw [List.dropWhile_eq_nil_iff.mpr hall]
  simp only [List.isEmpty_nil, if_true]
  rw [hdd, List.dropWhile_cons]
  rw [if_neg (by simpa using hch)]
  rw [← hdd]

theorem line_length_arith (pfx conn disp : String) (d : Nat) (hd : 1 ≤ d)
    (hlp : pfx.length = 4 * (d - 1)) (hlc : conn.length = 4)
    (hstrip : lstripTree (pfx ++ conn ++ disp) = disp) :
    ((pfx ++ conn ++ disp).length - (lstripTree (pfx ++ conn ++ disp)).length) / 4
      = d := by
  rw [hstrip]
  simp only [String.length_append]
  rw [hlp, hlc]
  omega

theorem splitCh_no_newline (a : List Char) (ha : '\n' ∉ a) : splitCh a = [a] := by
  induction a with
  | nil => rw [splitCh]
  | cons c rest ih =>
    rw [splitCh]
    rw [if_neg (by intro hcc; exact ha (by simp [hcc]))]
    rw [ih (by intro hcc; exact ha (by simp [hcc]))]

theorem splitCh_append_newline (a b : List Char) (ha : '\n' ∉ a) :
    splitCh (a ++ '\n' :: b) = a :: splitCh b := by
  induction a with
  | nil =>
    rw [List.nil_append, splitCh]
    simp
  | cons c rest ih =>
    rw [List.cons_append, splitCh]
    rw [if_neg (by intro hcc; exact ha (by simp [hcc]))]
    rw [ih (by intro hcc; exact ha (by simp [hcc]))]

theorem splitLines_joinLines : ∀ (lines : List String), lines ≠ [] →
    (∀ l ∈ lines, '\n' ∉ l.data) → splitLines (joinLines lines) = lines
  | [], h, _ => absurd rfl h
  | [l], _, hnl => by
    rw [joinLines, splitLines]
    rw [splitCh_no_newline l.data (hnl l (by simp))]
    rfl
  | l :: l2 :: rest, _, hnl => by
    show splitLines (l ++ "\n" ++ joinLines (l2 :: rest)) = l :: l2 :: rest
    unfold splitLines
    rw [String.data_append, String.data_append]
    have hn : "\n".data = ['\n'] := rfl
    rw [hn, List.append_assoc, List.singleton_append]
    rw [splitCh_append_newline l.data _ (hnl l (by simp))]
    have ih := splitLines_joinLines (l2 :: rest) (List.cons_ne_nil l2 rest)
      (fun x hx => hnl x (by simp [List.mem_cons] at hx ⊢; tauto))
    unfold splitLines at ih
    simp only [List.map_cons]
    rw [ih]

theorem clean_mem : ∀ (l : List (String × FSNode)) (e : String × FSNode),
    cleanEntries l = true → e ∈ l → goodName e.1 = true ∧ cleanNode e.2 = true := by
  intro l
  induction l with
  | nil => intro e _ he; exact absurd he (List.not_mem_nil e)
  | cons a rest ih =>
    intro e hc he
    obtain ⟨na, va⟩ := a
    rw [cleanEntries] at hc
    simp only [Bool.and_eq_true] at hc
    rcases List.mem_cons.mp he with rfl | he2
    · exact ⟨hc.1.1, hc.1.2⟩
    · exact ih e hc.2 he2

theorem rids_sublist : ∀ (l : List (String × FSNode)) (e : String × FSNode),
    e ∈ l → List.Sublist (ridsOf e.2) (ridsOfEntries l) := by
  intro l
  induction l with
  | nil => intro e he; exact absurd he (List.not_mem_nil e)
  | cons a rest ih =>
    intro e he
    obtain ⟨na, va⟩ := a
    rw [ridsOfEntries]
    rcases List.mem_cons.mp he with rfl | he2
    · exact List.sublist_append_left _ _
    · exact (ih e he2).trans (List.sublist_append_right _ _)

theorem rids_mem_entries (l : List (String × FSNode)) (e : String × FSNode)
    (he : e ∈ l) {x : Nat} (hx : x ∈ ridsOf e.2) : x ∈ ridsOfEntries l :=
  (rids_sublist l e he).mem hx

theorem pairwise_rids : ∀ (l : List (String × FSNode)),
    (ridsOfEntries l).Nodup →
    l.Pairwise (fun e1 e2 => ∀ x ∈ ridsOf e1.2, x ∉ ridsOf e2.2) := by
  intro l
  induction l with
  | nil => intro _; exact List.Pairwise.nil
  | cons a rest ih =>
    intro h
    obtain ⟨na, va⟩ := a
    rw [ridsOfEntries] at h
    rw [List.nodup_append] at h
    refine List.Pairwise.cons ?_ (ih h.2.1)
    intro e2 he2 x hx
    intro hx2
    exact h.2.2 hx (rids_mem_entries rest e2 he2 hx2)

theorem rids_disjoint_symm : Symmetric
    (fun (e1 e2 : String × FSNode) => ∀ x ∈ ridsOf e1.2, x ∉ ridsOf e2.2) := by
  intro a b hab x hxb hxa
  exact hab x hxa hxb

theorem sortFiltered_pairwise_rids (cfg : Config) (l : List (String × FSNode))
    (h : (ridsOfEntries l).Nodup) :
    (sortFiltered cfg l).Pairwise
      (fun e1 e2 => ∀ x ∈ ridsOf e1.2, x ∉ ridsOf e2.2) := by
  have h1 := pairwise_rids l h
  have h2 : (sortItems l).Pairwise
      (fun e1 e2 => ∀ x ∈ ridsOf e1.2, x ∉ ridsOf e2.2) :=
    ((List.mergeSort_perm l keyLe).pairwise_iff
      (fun hab => rids_disjoint_symm hab)).mpr h1
  have h3 : List.Sublist (sortFiltered cfg l) (sortItems l) := by
    have ha : List.Sublist (filterHidden cfg (sortItems l)) (sortItems l) := by
      unfold filterHidden
      split
      · exact List.Sublist.refl _
      · exact List.filter_sublist _
    exact (List.filter_sublist _).trans ha
  exact h2.sublist h3

theorem goodName_spec (s : String) (h : goodName s = true) :
    (∃ ch r, s.data = ch :: r ∧ ch ∉ stripChars) ∧ '\n' ∉ s.data := by
  unfold goodName at h
  rcases hd : s.data with _ | ⟨c, rest⟩
  · rw [hd] at h
    exact absurd h (by simp)
  · rw [hd] at h
    simp only [Bool.and_eq_true, Bool.not_eq_true'] at h
    refine ⟨⟨c, rest, rfl, ?_⟩, ?_⟩
    · intro hmem
      have : stripChars.contains c = true := by
        simp [List.elem_eq_mem, hmem]
      rw [this] at h
      exact absurd h.1 (by simp)
    · intro hmem
      have : (c :: rest).contains '\n' = true := by
        simp [List.elem_eq_mem, hmem]
      rw [this] at h
      exact absurd h.2 (by simp)

theorem classic_conn_strip (sym : Symbols) (h : sym = classicSymbols) (isLast : Bool) :
    (∀ c ∈ (if isLast then sym.last else sym.branch).data, c ∈ stripChars)
    ∧ (if isLast then sym.last else sym.branch).length = 4 := by
  subst h
  cases isLast <;> exact ⟨by decide, by decide⟩

theorem classic_ext_strip (sym : Symbols) (h : sym = classicSymbols) (isLast : Bool) :
    (∀ c ∈ (if isLast then "    " else sym.indent).data, c ∈ stripChars)
    ∧ (if isLast then "    " else sym.indent).length = 4 := by
  subst h
  cases isLast <;> exact ⟨by decide, by decide⟩

theorem line_no_newline (pfx conn disp : String)
    (hp : ∀ c ∈ pfx.data, c ∈ stripChars) (hc : ∀ c ∈ conn.data, c ∈ stripChars)
    (hdisp : '\n' ∉ disp.data) : '\n' ∉ (pfx ++ conn ++ disp).data := by
  rw [String.data_append, String.data_append]
  intro h
  rcases List.mem_append.mp h with h1 | h2
  · rcases List.mem_append.mp h1 with ha | hb
    · exact absurd (hp _ ha) (by decide)
    · exact absurd (hc _ hb) (by decide)
  · exact hdisp h2

theorem t2jStep_clean_line (pfx conn disp : String) (d : Nat) (hd1 : 1 ≤ d)
    (hp : ∀ c ∈ pfx.data, c ∈ stripChars) (hc : ∀ c ∈ conn.data, c ∈ stripChars)
    (hlc : conn.length = 4) (hlp : pfx.length = 4 * (d - 1))
    (hdisp : ∃ ch r, disp.data = ch :: r ∧ ch ∉ stripChars)
    (A : List Frame) (p : Frame) (R : List Frame)
    (hA : ∀ f ∈ A, d ≤ f.depth) (hpd : p.depth < d) :
    t2jStep (A ++ p :: R, none) (pfx ++ conn ++ disp)
      = (⟨disp, d, []⟩ :: attachF A p :: R, none) := by
  have hs : lstripTree (pfx ++ conn ++ disp) = disp := lstrip_line pfx conn disp hp hc hdisp
  have hdd : ((pfx ++ conn ++ disp).length
      - (lstripTree (pfx ++ conn ++ disp)).length) / 4 = d :=
    line_length_arith pfx conn disp d hd1 hlp hlc hs
  rw [hs] at hdd
  rw [t2jStep]
  simp only [hs, hdd]
  rw [popGE_pops d A p R hA hpd]

theorem dropLast_append_of_getLast {α : Type} {l : List α} {a : α}
    (h : l.getLast? = some a) : l.dropLast ++ [a] = l := by
  have hne : l ≠ [] := by
    intro he
    subst he
    simp at h
  rw [List.getLast?_eq_getLast l hne] at h
  have ha : l.getLast hne = a := by
    injection h
  rw [← ha]
  exact List.dropLast_concat_getLast hne


mutual

/-- Effect of one clean entry's block of walk lines on the `tree_to_json`
stack: it collapses the region `A` above the parent frame `p` into `p` and
leaves the finished reconstruction of the entry's subtree as a new open
region on top; the visited set gains only canonical paths of this subtree;
the block has exactly as many lines as the rebuilt subtree has nodes, and no
line contains a newline. -/
theorem walk_t2j_entry (node : FSNode) (cfg : Config) (name : String)
    (pfx : String) (isLast : Bool) (d : Nat) (v : List Nat)
    (A : List Frame) (p : Frame) (R : List Frame)
    (hsym : cfg.symbols = classicSymbols) (hmd : cfg.max_depth = none)
    (hmeta : cfg.show_metadata = false)
    (hgood : goodName name = true) (hclean : cleanNode node = true)
    (hfresh : ∀ x ∈ ridsOf node, x ∉ v) (hnodup : (ridsOf node).Nodup)
    (hp : ∀ c ∈ pfx.data, c ∈ stripChars) (hlp : pfx.length = 4 * (d - 1))
    (hd1 : 1 ≤ d) (hA : ∀ f ∈ A, d ≤ f.depth) (hpd : p.depth < d) :
    ∃ A' : List Frame,
      (∀ f ∈ A', d ≤ f.depth)
      ∧ collapseOf A' = some (jnodeOf cfg (name, node))
      ∧ List.foldl t2jStep (A ++ p :: R, none)
          (walkEntry cfg name node pfx isLast d v).1
        = (A' ++ attachF A p :: R, none)
      ∧ (∀ x ∈ (walkEntry cfg name node pfx isLast d v).2, x ∈ v ∨ x ∈ ridsOf node)
      ∧ (walkEntry cfg name node pfx isLast d v).1.length
          = countJ (jnodeOf cfg (name, node))
      ∧ (∀ line ∈ (walkEntry cfg name node pfx isLast d v).1, '\n' ∉ line.data) := by
  obtain ⟨hgood1, hgood2⟩ := goodName_spec name hgood
  obtain ⟨hcs, hcl⟩ := classic_conn_strip cfg.symbols hsym isLast
  cases node with
  | symlink target =>
    rw [cleanNode.eq_def] at hclean
    simp at hclean
  | dirPermErr rid =>
    rw [cleanNode.eq_def] at hclean
    simp at hclean
  | dirOtherErr rid msg =>
    rw [cleanNode.eq_def] at hclean
    simp at hclean
  | file size mtime statOk =>
    have hfd : fileDisplay cfg name size mtime statOk = name := by
      rw [fileDisplay, hmeta]
      simp
    have hjn : jnodeOf cfg (name, FSNode.file size mtime statOk)
        = JNode.node name [] := by
      rw [jnodeOf.eq_def]
      simp only [entryDisplay, hfd]
    rw [walkEntry]
    simp only [hfd, hjn]
    refine ⟨[⟨name, d, []⟩], by simp, by simp [collapseOf], ?_, ?_, ?_, ?_⟩
    · simp only [List.foldl_cons, List.foldl_nil]
      rw [t2jStep_clean_line pfx _ name d hd1 hp hcs hcl hlp hgood1 A p R hA hpd]
      rfl
    · intro x hx
      exact Or.inl hx
    · simp [countJ, countJList]
    · intro line hline
      simp only [List.mem_singleton] at hline
      subst hline
      exact line_no_newline pfx _ name hp hcs hgood2
  | dir rid entries =>
    have hrid : rid ∈ ridsOf (FSNode.dir rid entries) := by
      rw [ridsOf]
      simp
    have hcont : v.contains rid = false := by
      have := hfresh rid hrid
      simp [this]
    have hjn : jnodeOf cfg (name, FSNode.dir rid entries)
        = JNode.node name (jnodeList cfg (sortFiltered cfg entries)) := by
      rw [jnodeOf]
      rw [entryDisplay.eq_def]
    obtain ⟨hes, hel⟩ := classic_ext_strip cfg.symbols hsym isLast
    have hnodupE : (ridsOfEntries entries).Nodup ∧ rid ∉ ridsOfEntries entries := by
      rw [ridsOf] at hnodup
      exact ⟨hnodup.of_cons, (List.nodup_cons.mp hnodup).1⟩
    have hcleanE : cleanEntries entries = true := by
      rw [cleanNode] at hclean
      exact hclean
    have htr : truncated cfg (d + 1) = false := by
      rw [truncated, hmd]
    rw [walkEntry]
    simp only [hcont, Bool.false_eq_true, if_false]
    rw [walkDir]
    simp only [htr, Bool.false_eq_true, if_false]
    have hpfx2 : ∀ c ∈ (pfx ++ (if isLast then "    " else cfg.symbols.indent)).data,
        c ∈ stripChars := by
      intro c hc
      rw [String.data_append] at hc
      rcases List.mem_append.mp hc with h1 | h2
      · exact hp c h1
      · exact hes c h2
    have hlp2 : (pfx ++ (if isLast then "    " else cfg.symbols.indent)).length
        = 4 * ((d + 1) - 1) := by
      rw [String.length_append, hlp, hel]
      omega
    rcases hitems : sortFiltered cfg entries with _ | ⟨e1, irest⟩
    · rw [walkItems]
      have hjn0 : jnodeOf cfg (name, FSNode.dir rid entries) = JNode.node name [] := by
        rw [hjn, hitems, jnodeList]
      simp only [hjn0]
      refine ⟨[⟨name, d, []⟩], by simp, by simp [collapseOf], ?_, ?_, ?_, ?_⟩
      · simp only [List.foldl_cons, List.foldl_nil]
        rw [t2jStep_clean_line pfx _ name d hd1 hp hcs hcl hlp hgood1 A p R hA hpd]
        rfl
      · intro x hx
        simp only [List.mem_cons] at hx
        rcases hx with rfl | hx
        · exact Or.inr hrid
        · exact Or.inl hx
      · simp [countJ, countJList]
      · intro line hline
        simp only [List.mem_singleton] at hline
        subst hline
        exact line_no_newline pfx _ name hp hcs hgood2
    · have hmemE : ∀ e ∈ e1 :: irest, e ∈ entries := by
        intro e he
        rw [← hitems] at he
        exact mem_sortFiltered he
      have hfr2 : ∀ e ∈ e1 :: irest,
          (∀ x ∈ ridsOf e.2, x ∉ rid :: v) ∧ (ridsOf e.2).Nodup := by
        intro e he
        have heE := hmemE e he
        constructor
        · intro x hx hxin
          have hxE : x ∈ ridsOfEntries entries := rids_mem_entries entries e heE hx
          rcases List.mem_cons.mp hxin with rfl | hxv
          · exact hnodupE.2 hxE
          · exact hfresh x (by rw [ridsOf]; exact List.mem_cons_of_mem rid hxE) hxv
        · exact hnodupE.1.sublist (rids_sublist entries e heE)
      have hpw2 : (e1 :: irest).Pairwise
          (fun a b => ∀ x ∈ ridsOf a.2, x ∉ ridsOf b.2) := by
        rw [← hitems]
        exact sortFiltered_pairwise_rids cfg entries hnodupE.1
      have hclean2 : ∀ e ∈ e1 :: irest, goodName e.1 = true ∧ cleanNode e.2 = true := by
        intro e he
        exact clean_mem entries e hcleanE (hmemE e he)
      obtain ⟨A2, q2, hA2d, hA2col, hq2n, hq2d, hq2c, hfold2, hvis2, hlen2, hnl2⟩ :=
        walk_t2j_items (e1 :: irest) cfg
          (pfx ++ (if isLast then "    " else cfg.symbols.indent)) (d + 1)
          (rid :: v) [] ⟨name, d, []⟩ (attachF A p :: R)
          (List.cons_ne_nil e1 irest) hsym hmd hmeta hclean2 hfr2 hpw2 hpfx2 hlp2
          (by omega) (by simp) (by simp)
      refine ⟨A2 ++ [q2], ?_, ?_, ?_, ?_, ?_, ?_⟩
      · intro f hf
        rcases List.mem_append.mp hf with h1 | h2
        · have := hA2d f h1
          omega
        · simp only [List.mem_singleton] at h2
          subst h2
          rw [hq2d]
      · rw [collapseOf_append_single, hA2col]
        have hjn2 : jnodeOf cfg (name, FSNode.dir rid entries)
            = JNode.node name (jnodeList cfg (e1 :: irest)) := by
          rw [hjn, hitems]
        have hjsne : jnodeList cfg (e1 :: irest) ≠ [] := by
          rw [jnodeList]
          simp
        rcases hgl : (jnodeList cfg (e1 :: irest)).getLast? with _ | jl
        · rw [List.getLast?_eq_none_iff] at hgl
          exact absurd hgl hjsne
        · show some (collapse1 jl q2) = _
          rw [hjn2, collapse1, hq2n, hq2c]
          simp only [attachF, collapseOf, List.nil_append, List.append_assoc]
          rw [dropLast_append_of_getLast hgl]
      · simp only [List.foldl_cons]
        rw [t2jStep_clean_line pfx _ name d hd1 hp hcs hcl hlp hgood1 A p R hA hpd]
        have hshape : (⟨name, d, []⟩ : Frame) :: attachF A p :: R
            = [] ++ (⟨name, d, []⟩ : Frame) :: (attachF A p :: R) := by simp
        rw [hshape, hfold2]
        simp
      · intro x hx
        rcases hvis2 x hx with h1 | ⟨e, he, hxe⟩
        · rcases List.mem_cons.mp h1 with rfl | hxv
          · exact Or.inr hrid
          · exact Or.inl hxv
        · refine Or.inr ?_
          rw [ridsOf]
          refine List.mem_cons_of_mem rid ?_
          exact rids_mem_entries entries e (hmemE e he) hxe
      · simp only [List.length_cons, hlen2, hjn, hitems]
        rw [countJ]
        omega
      · intro line hline
        simp only [List.mem_cons] at hline
        rcases hline with rfl | hline
        · exact line_no_newline pfx _ name hp hcs hgood2
        · exact hnl2 line hline
termination_by (sizeOf node, 0)
decreasing_by
  rename_i hnode
  apply Prod.Lex.left
  have h1 := sizeOf_sortFiltered_le cfg entries
  have h2 : sizeOf (sortFiltered cfg entries) = sizeOf (e1 :: irest) := by
    rw [hitems]
  have h3 : sizeOf node = 1 + sizeOf rid + sizeOf entries := by
    rw [hnode]
    simp
  omega

/-- Effect of a nonempty filtered-entry list's walk lines on the
`tree_to_json` stack: earlier siblings are completed and attached to the
parent frame in order, and the last sibling's reconstruction stays as the
open region on top. -/
theorem walk_t2j_items (items : List (String × FSNode)) (cfg : Config)
    (pfx : String) (d : Nat) (v : List Nat)
    (A : List Frame) (p : Frame) (R : List Frame)
    (hne : items ≠ [])
    (hsym : cfg.symbols = classicSymbols) (hmd : cfg.max_depth = none)
    (hmeta : cfg.show_metadata = false)
    (hclean : ∀ e ∈ items, goodName e.1 = true ∧ cleanNode e.2 = true)
    (hfr : ∀ e ∈ items, (∀ x ∈ ridsOf e.2, x ∉ v) ∧ (ridsOf e.2).Nodup)
    (hpw : items.Pairwise (fun a b => ∀ x ∈ ridsOf a.2, x ∉ ridsOf b.2))
    (hp : ∀ c ∈ pfx.data, c ∈ stripChars) (hlp : pfx.length = 4 * (d - 1))
    (hd1 : 1 ≤ d) (hA : ∀ f ∈ A, d ≤ f.depth) (hpd : p.depth < d) :
    ∃ (A' : List Frame) (q : Frame),
      (∀ f ∈ A', d ≤ f.depth)
      ∧ collapseOf A' = (jnodeList cfg items).getLast?
      ∧ q.name = p.name ∧ q.depth = p.depth
      ∧ q.children = (attachF A p).children ++ (jnodeList cfg items).dropLast
      ∧ List.foldl t2jStep (A ++ p :: R, none) (walkItems cfg items pfx d v).1
          = (A' ++ q :: R, none)
      ∧ (∀ x ∈ (walkItems cfg items pfx d v).2, x ∈ v ∨ ∃ e ∈ items, x ∈ ridsOf e.2)
      ∧ (walkItems cfg items pfx d v).1.length = countJList (jnodeList cfg items)
      ∧ (∀ line ∈ (walkItems cfg items pfx d v).1, '\n' ∉ line.data) := by
  rcases hitems0 : items with _ | ⟨⟨n1, node1⟩, rest⟩
  · exact absurd hitems0 hne
  · rw [hitems0] at hclean hfr hpw
    obtain ⟨A1, hA1d, hA1col, hfold1, hvis1, hlen1, hnl1⟩ :=
      walk_t2j_entry node1 cfg n1 pfx rest.isEmpty d v A p R hsym hmd hmeta
        (hclean (n1, node1) (by simp)).1 (hclean (n1, node1) (by simp)).2
        (hfr (n1, node1) (by simp)).1 (hfr (n1, node1) (by simp)).2
        hp hlp hd1 hA hpd
    have hwi : walkItems cfg ((n1, node1) :: rest) pfx d v
        = ((walkEntry cfg n1 node1 pfx rest.isEmpty d v).1
            ++ (walkItems cfg rest pfx d
                 (walkEntry cfg n1 node1 pfx rest.isEmpty d v).2).1,
           (walkItems cfg rest pfx d
             (walkEntry cfg n1 node1 pfx rest.isEmpty d v).2).2) := by
      rw [walkItems]
    have hjl : jnodeList cfg ((n1, node1) :: rest)
        = jnodeOf cfg (n1, node1) :: jnodeList cfg rest := by
      rw [jnodeList]
    cases rest with
    | nil =>
      have hw0 : walkItems cfg [] pfx d
          (walkEntry cfg n1 node1 pfx
            (List.isEmpty ([] : List (String × FSNode))) d v).2
          = ([], (walkEntry cfg n1 node1 pfx
              (List.isEmpty ([] : List (String × FSNode))) d v).2) := by
        rw [walkItems]
      rw [hwi, hw0]
      have hjl0 : jnodeList cfg ([] : List (String × FSNode)) = [] := by
        rw [jnodeList]
      refine ⟨A1, attachF A p, hA1d, ?_, (attachF_name A p).1, (attachF_name A p).2,
        ?_, ?_, ?_, ?_, ?_⟩
      · rw [hA1col, hjl, hjl0]
        simp
      · rw [hjl, hjl0]
        simp
      · simp only [List.append_nil]
        exact hfold1
      · intro x hx
        simp only at hx
        rcases hvis1 x hx with h1 | h2
        · exact Or.inl h1
        · exact Or.inr ⟨(n1, node1), by simp, h2⟩
      · simp only [List.append_nil, hjl, hjl0]
        rw [countJList, countJList]
        omega
      · simp only [List.append_nil]
        exact hnl1
    | cons e2 rest2 =>
      have hfr2 : ∀ e ∈ e2 :: rest2,
          (∀ x ∈ ridsOf e.2,
            x ∉ (walkEntry cfg n1 node1 pfx (List.isEmpty (e2 :: rest2)) d v).2)
          ∧ (ridsOf e.2).Nodup := by
        intro e he
        refine ⟨?_, (hfr e (List.mem_cons_of_mem _ he)).2⟩
        intro x hx hxin
        rcases hvis1 x hxin with h1 | h2
        · exact (hfr e (List.mem_cons_of_mem _ he)).1 x hx h1
        · exact (List.pairwise_cons.mp hpw).1 e he x h2 hx
      have hclean2 : ∀ e ∈ e2 :: rest2, goodName e.1 = true ∧ cleanNode e.2 = true :=
        fun e he => hclean e (List.mem_cons_of_mem _ he)
      have hpw2 : (e2 :: rest2).Pairwise
          (fun a b => ∀ x ∈ ridsOf a.2, x ∉ ridsOf b.2) :=
        (List.pairwise_cons.mp hpw).2
      obtain ⟨A2, q2, hA2d, hA2col, hq2n, hq2d, hq2c, hfold2, hvis2, hlen2, hnl2⟩ :=
        walk_t2j_items (e2 :: rest2) cfg pfx d
          (walkEntry cfg n1 node1 pfx (List.isEmpty (e2 :: rest2)) d v).2
          A1 (attachF A p) R (List.cons_ne_nil e2 rest2)
          hsym hmd hmeta hclean2 hfr2 hpw2 hp hlp hd1 hA1d
          (by rw [(attachF_name A p).2]; exact hpd)
      rw [hwi]
      have hjl2 : jnodeList cfg (e2 :: rest2)
          = jnodeOf cfg e2 :: jnodeList cfg rest2 := by
        rw [jnodeList]
      have hattach : attachF A1 (attachF A p)
          = ⟨p.name, p.depth, (attachF A p).children ++ [jnodeOf cfg (n1, node1)]⟩ := by
        unfold attachF
        rw [hA1col]
        simp only [attachF_name]
        rcases hc : collapseOf A with _ | j
        · simp [attachF, hc]
        · simp [attachF, hc]
      refine ⟨A2, ⟨p.name, p.depth,
        (attachF A p).children ++ (jnodeList cfg ((n1, node1) :: e2 :: rest2)).dropLast⟩,
        hA2d, ?_, rfl, rfl, rfl, ?_, ?_, ?_, ?_⟩
      · rw [hA2col, hjl, hjl2, List.getLast?_cons_cons]
      · rw [List.foldl_append, hfold1, hfold2]
        have hq2 : q2 = ⟨p.name, p.depth,
            (attachF A p).children ++ (jnodeList cfg ((n1, node1) :: e2 :: rest2)).dropLast⟩ := by
          have h1 : q2 = ⟨q2.name, q2.depth, q2.children⟩ := rfl
          rw [h1, hq2n, hq2d, hq2c, hattach]
          simp only [(attachF_name A p).1, (attachF_name A p).2]
          rw [hjl, hjl2, List.dropLast_cons₂]
          simp [List.append_assoc]
        rw [hq2]
      · intro x hx
        rcases hvis2 x hx with h1 | ⟨e, he, hxe⟩
        · rcases hvis1 x h1 with ha | hb
          · exact Or.inl ha
          · exact Or.inr ⟨(n1, node1), by simp, hb⟩
        · exact Or.inr ⟨e, List.mem_cons_of_mem _ he, hxe⟩
      · simp only [List.length_append, hlen1, hlen2, hjl]
        rw [countJList]
      · intro line hline
        rcases List.mem_append.mp hline with h1 | h2
        · exact hnl1 line h1
        · exact hnl2 line h2
termination_by (sizeOf items, 1)
decreasing_by
  · apply Prod.Lex.left
    rw [hitems0]
    simp only [List.cons.sizeOf_spec, Prod.mk.sizeOf_spec]
    omega
  · apply Prod.Lex.left
    rw [hitems0]
    simp only [List.cons.sizeOf_spec, Prod.mk.sizeOf_spec]
    omega

end

mutual

/-- The nesting shape of a reconstructed entry node equals the filesystem
shape of the entry's subtree. -/
theorem jshape_jnodeOf (cfg : Config) (e : String × FSNode) :
    jshape (jnodeOf cfg e) = fsShape cfg e.2 := by
  rcases he : e with ⟨name, node⟩
  rcases hnode : node with ⟨size, mtime, statOk⟩ | ⟨rid, entries⟩ | rid
    | ⟨rid, msg⟩ | target
  · show jshape (jnodeOf cfg (name, FSNode.file size mtime statOk))
        = fsShape cfg (FSNode.file size mtime statOk)
    rw [jnodeOf.eq_def]
    simp [fsShape.eq_def, jshape, jshapeList]
  · show jshape (jnodeOf cfg (name, FSNode.dir rid entries))
        = fsShape cfg (FSNode.dir rid entries)
    rw [jnodeOf, fsShape, jshape]
    rw [jshapeList_jnodeList cfg (sortFiltered cfg entries)]
  · show jshape (jnodeOf cfg (name, FSNode.dirPermErr rid))
        = fsShape cfg (FSNode.dirPermErr rid)
    rw [jnodeOf.eq_def]
    simp [fsShape.eq_def, jshape, jshapeList]
  · show jshape (jnodeOf cfg (name, FSNode.dirOtherErr rid msg))
        = fsShape cfg (FSNode.dirOtherErr rid msg)
    rw [jnodeOf.eq_def]
    simp [fsShape.eq_def, jshape, jshapeList]
  · show jshape (jnodeOf cfg (name, FSNode.symlink target))
        = fsShape cfg (FSNode.symlink target)
    rw [jnodeOf.eq_def]
    simp [fsShape.eq_def, jshape, jshapeList]
termination_by (sizeOf e, 0)
decreasing_by
  apply Prod.Lex.left
  have h1 := sizeOf_sortFiltered_le cfg entries
  simp only [Prod.mk.sizeOf_spec, FSNode.dir.sizeOf_spec]
  omega

/-- List version of the shape correspondence. -/
theorem jshapeList_jnodeList (cfg : Config) (items : List (String × FSNode)) :
    jshapeList (jnodeList cfg items) = fsShapeList cfg items := by
  rcases hitems0 : items with _ | ⟨⟨n1, node1⟩, rest⟩
  · rw [jnodeList, jshapeList, fsShapeList]
  · rw [jnodeList, fsShapeList, jshapeList]
    rw [jshape_jnodeOf cfg (n1, node1), jshapeList_jnodeList cfg rest]
termination_by (sizeOf items, 1)
decreasing_by
  · apply Prod.Lex.left
    simp only [List.cons.sizeOf_spec, Prod.mk.sizeOf_spec]
    omega
  · apply Prod.Lex.left
    simp only [List.cons.sizeOf_spec]
    omega

end

/-- C2 (amended): the round trip does hold once the fragile depth inference
is protected from interference.  For a tree of plain files and readable
directories whose entry names are nonempty, contain no newline and do not
begin with one of the characters `tree_to_json` strips (space, `│`, `└`,
`├`, `─`, `+`, `-`, `\`), with pairwise-distinct canonical directory paths,
rendered with the Classic symbol set, no depth limit and metadata off,
`tree_to_json` applied to the walker's plain-text output reconstructs a
structure whose node count equals the number of emitted lines (including
the root) and whose nesting shape equals the filtered directory nesting. -/
theorem round_trip_amended (cfg : Config) (rootName : String)
    (rid : Nat) (entries : List (String × FSNode))
    (hsym : cfg.symbols = classicSymbols) (hmd : cfg.max_depth = none)
    (hmeta : cfg.show_metadata = false)
    (hclean : cleanNode (FSNode.dir rid entries) = true)
    (hnodup : (ridsOf (FSNode.dir rid entries)).Nodup)
    (hroot : '\n' ∉ rootName.data) :
    countJ (tree_to_json (generate_tree cfg rootName (FSNode.dir rid entries)))
        = (treeLines cfg rootName (FSNode.dir rid entries)).length
    ∧ jshape (tree_to_json (generate_tree cfg rootName (FSNode.dir rid entries)))
        = fsShape cfg (FSNode.dir rid entries) := by
  have hcleanE : cleanEntries entries = true := by
    rw [cleanNode] at hclean
    exact hclean
  have hnodupE : (ridsOfEntries entries).Nodup := by
    rw [ridsOf] at hnodup
    exact hnodup.of_cons
  have htr : truncated cfg 1 = false := by
    rw [truncated, hmd]
  have hwd : walkDir cfg (FSNode.dir rid entries) "" 1 []
      = walkItems cfg (sortFiltered cfg entries) "" 1 [] := by
    rw [walkDir]
    simp only [htr, Bool.false_eq_true, if_false]
  obtain ⟨hkey, hlen⟩ :
      tree_to_json (generate_tree cfg rootName (FSNode.dir rid entries))
        = JNode.node rootName (jnodeList cfg (sortFiltered cfg entries))
      ∧ (walkItems cfg (sortFiltered cfg entries) "" 1 []).1.length
        = countJList (jnodeList cfg (sortFiltered cfg entries)) := by
    rcases hitems : sortFiltered cfg entries with _ | ⟨e1, irest⟩
    · have hw1 : walkItems cfg ([] : List (String × FSNode)) "" 1 ([] : List Nat)
          = (([] : List String), ([] : List Nat)) := by
        rw [walkItems]
      have hlines : treeLines cfg rootName (FSNode.dir rid entries) = [rootName] := by
        rw [treeLines, hwd, hitems, hw1]
      have hgen : generate_tree cfg rootName (FSNode.dir rid entries) = rootName := by
        rw [generate_tree, hlines, joinLines]
      have hsplit : splitLines rootName = [rootName] := by
        have hs := splitLines_joinLines [rootName] (by simp) (by
          intro l hl
          simp only [List.mem_singleton] at hl
          subst hl
          exact hroot)
        rw [joinLines] at hs
        exact hs
      constructor
      · rw [hgen, tree_to_json.eq_def, hsplit]
        simp [collapseOf, jnodeList]
      · rw [hw1]
        rw [jnodeList, countJList]
        rfl
    · have hmemE : ∀ e ∈ e1 :: irest, e ∈ entries := by
        intro e he
        rw [← hitems] at he
        exact mem_sortFiltered he
      have hcleanI : ∀ e ∈ e1 :: irest, goodName e.1 = true ∧ cleanNode e.2 = true := by
        intro e he
        exact clean_mem entries e hcleanE (hmemE e he)
      have hfrI : ∀ e ∈ e1 :: irest,
          (∀ x ∈ ridsOf e.2, x ∉ ([] : List Nat)) ∧ (ridsOf e.2).Nodup := by
        intro e he
        constructor
        · intro x _ hxin
          exact absurd hxin (List.not_mem_nil x)
        · exact hnodupE.sublist (rids_sublist entries e (hmemE e he))
      have hpwI : (e1 :: irest).Pairwise
          (fun a b => ∀ x ∈ ridsOf a.2, x ∉ ridsOf b.2) := by
        rw [← hitems]
        exact sortFiltered_pairwise_rids cfg entries hnodupE
      obtain ⟨A2, q2, hA2d, hA2col, hq2n, hq2d, hq2c, hfold2, hvis2, hlen2, hnl2⟩ :=
        walk_t2j_items (e1 :: irest) cfg "" 1 [] [] ⟨rootName, 0, []⟩ []
          (List.cons_ne_nil e1 irest) hsym hmd hmeta hcleanI hfrI hpwI
          (by intro c hc; exact absurd hc (List.not_mem_nil c))
          (by decide) (by decide)
          (by intro f hf; exact absurd hf (List.not_mem_nil f))
          Nat.zero_lt_one
      refine ⟨?_, hlen2⟩
      have hlines : treeLines cfg rootName (FSNode.dir rid entries)
          = rootName :: (walkItems cfg (e1 :: irest) "" 1 []).1 := by
        rw [treeLines, hwd, hitems]
      have hsplit : splitLines (generate_tree cfg rootName (FSNode.dir rid entries))
          = rootName :: (walkItems cfg (e1 :: irest) "" 1 []).1 := by
        rw [generate_tree, hlines]
        exact splitLines_joinLines _ (List.cons_ne_nil _ _) (by
          intro l hl
          rcases List.mem_cons.mp hl with rfl | hl2
          · exact hroot
          · exact hnl2 l hl2)
      have hfold3 : List.foldl t2jStep ([⟨rootName, 0, []⟩], none)
          (walkItems cfg (e1 :: irest) "" 1 []).1 = (A2 ++ [q2], none) := by
        have h0 : ([⟨rootName, 0, []⟩] : List Frame)
            = [] ++ (⟨rootName, 0, []⟩ : Frame) :: [] := by simp
        rw [h0, hfold2]
      have hval : tree_to_json (generate_tree cfg rootName (FSNode.dir rid entries))
          = (match (List.foldl t2jStep ([⟨rootName, 0, []⟩], none)
                (walkItems cfg (e1 :: irest) "" 1 []).1).2 with
             | some j => j
             | none => (collapseOf (List.foldl t2jStep ([⟨rootName, 0, []⟩], none)
                   (walkItems cfg (e1 :: irest) "" 1 []).1).1).getD
                 (JNode.node rootName [])) := by
        rw [tree_to_json.eq_def, hsplit]
      rw [hval, hfold3]
      show (collapseOf (A2 ++ [q2])).getD (JNode.node rootName [])
          = JNode.node rootName (jnodeList cfg (e1 :: irest))
      rw [collapseOf_append_single]
      have hjsne : jnodeList cfg (e1 :: irest) ≠ [] := by
        rw [jnodeList]
        simp
      rcases hgl : (jnodeList cfg (e1 :: irest)).getLast? with _ | jl
      · rw [List.getLast?_eq_none_iff] at hgl
        exact absurd hgl hjsne
      · rw [hA2col, hgl]
        show collapse1 jl q2 = JNode.node rootName (jnodeList cfg (e1 :: irest))
        rw [collapse1, hq2n, hq2c]
        simp only [attachF, collapseOf, List.nil_append]
        rw [dropLast_append_of_getLast hgl]
  refine ⟨?_, ?_⟩
  · rw [hkey, countJ, treeLines, hwd, List.length_cons, hlen]
    omega
  · rw [hkey, jshape, jshapeList_jnodeList, fsShape]

/-- Concrete instance of the amended round trip: a root `r` holding the
single plain file `a`, rendered with the Classic symbols, satisfies the
node-count and nesting-shape equalities. -/
theorem round_trip_amended_witness :
    c2cfg.symbols = classicSymbols ∧ c2cfg.max_depth = none
    ∧ c2cfg.show_metadata = false
    ∧ cleanNode (FSNode.dir 0 [("a", FSNode.file 0 "m" true)]) = true
    ∧ (ridsOf (FSNode.dir 0 [("a", FSNode.file 0 "m" true)])).Nodup
    ∧ '\n' ∉ "r".data
    ∧ (countJ (tree_to_json (generate_tree c2cfg "r"
          (FSNode.dir 0 [("a", FSNode.file 0 "m" true)])))
        = (treeLines c2cfg "r" (FSNode.dir 0 [("a", FSNode.file 0 "m" true)])).length
      ∧ jshape (tree_to_json (generate_tree c2cfg "r"
          (FSNode.dir 0 [("a", FSNode.file 0 "m" true)])))
        = fsShape c2cfg (FSNode.dir 0 [("a", FSNode.file 0 "m" true)])) :=
  ⟨rfl, rfl, rfl, by decide, by decide, by decide,
   round_trip_amended c2cfg "r" 0 [("a", FSNode.file 0 "m" true)]
     rfl rfl rfl (by decide) (by decide) (by decide)⟩
